import Mathlib

/-!
Verification of `svg_dark_mode.py`, a text-level SVG dark-mode annotator.

The development shallowly embeds the Python source:
* `invert_color` (with its helpers `hex_to_rgb`, `rgb_to_hex`) is embedded
  over `List Char`; Python's fallible `int(s, 16)` becomes `pyIntHex :
  List Char → Option Int`, where `none` models a raised `ValueError`.
* `add_dark_mode_attributes` is embedded as a composition of the regex
  passes the source performs, each realised as an explicit left-to-right
  scan over the character list (the scans mirror the leftmost, non-greedy
  semantics of `re.findall` / `re.sub` for the concrete patterns used).
* `process_folder` is embedded over an abstract file-system snapshot.

Fuel arguments make every scan structurally recursive, hence computable by
the kernel; each public wrapper supplies fuel that is provably sufficient
(one unit per character of the input).  Character-class functions model the
ASCII fragment of Python's semantics, which covers every input exercised
here.
-/

/-- Characters stripped by Python's `int(str, base)` around the number
(ASCII fragment of `str.strip`). -/
def pyWs (c : Char) : Bool :=
  c = ' ' || c = '\t' || c = '\n' || c = '\x0d' || c = '\x0b' || c = '\x0c'

/-- Value of a hexadecimal digit character (`0-9`, `a-f`, `A-F`), as
accepted by `int(_, 16)`. -/
def hexDigit? (c : Char) : Option Nat :=
  if '0' ≤ c ∧ c ≤ '9' then some (c.toNat - '0'.toNat)
  else if 'a' ≤ c ∧ c ≤ 'f' then some (c.toNat - 'a'.toNat + 10)
  else if 'A' ≤ c ∧ c ≤ 'F' then some (c.toNat - 'A'.toNat + 10)
  else none

/-- Digit run of `int(_, 16)` after the first digit: hex digits optionally
separated by single underscores (no trailing or doubled underscore). -/
def parseDigitsAux : Nat → List Char → Option Nat
  | acc, [] => some acc
  | acc, c :: cs =>
    if c = '_' then
      match cs with
      | [] => none
      | c2 :: cs2 =>
        match hexDigit? c2 with
        | some d => parseDigitsAux (16 * acc + d) cs2
        | none => none
    else
      match hexDigit? c with
      | some d => parseDigitsAux (16 * acc + d) cs
      | none => none

/-- Digit run of `int(_, 16)`: nonempty, may not start with an underscore. -/
def parseDigits : List Char → Option Nat
  | [] => none
  | c :: cs =>
    if c = '_' then none
    else
      match hexDigit? c with
      | some d => parseDigitsAux d cs
      | none => none

/-- After a `0x`/`0X` prefix an optional single underscore may precede the
digit run. -/
def parseAfterPrefix : List Char → Option Nat
  | [] => none
  | c :: cs => if c = '_' then parseDigits cs else parseDigits (c :: cs)

/-- Unsigned body of `int(_, 16)`: optional `0x`/`0X` marker, then digits. -/
def parseBody : List Char → Option Nat
  | c0 :: c1 :: rest =>
    if c0 = '0' && (c1 = 'x' || c1 = 'X') then parseAfterPrefix rest
    else parseDigits (c0 :: c1 :: rest)
  | l => parseDigits l

/-- Strip `pyWs` characters from both ends of the list. -/
def stripPyWs (l : List Char) : List Char :=
  ((l.dropWhile pyWs).reverse.dropWhile pyWs).reverse

/-- Model of Python's `int(s, 16)` (ASCII fragment): surrounding
whitespace, an optional sign, an optional `0x` marker, then hex digits
with optional single underscores.  `none` models a raised `ValueError`. -/
def pyIntHex (l : List Char) : Option Int :=
  match stripPyWs l with
  | [] => none
  | c :: cs =>
    if c = '+' then (parseBody cs).map Int.ofNat
    else if c = '-' then (parseBody cs).map (fun n => -(Int.ofNat n))
    else (parseBody (c :: cs)).map Int.ofNat

/-- Python slice `l[i:j]` for `0 ≤ i ≤ j` (clamping beyond the end). -/
def pySlice (l : List Char) (i j : Nat) : List Char :=
  (l.drop i).take (j - i)

/-- `hex_to_rgb` from the source: strip leading `#` characters, then parse
the three slices `[0:2]`, `[2:4]`, `[4:6]` with `int(_, 16)`.  A failing
parse (e.g. an empty slice) is the raised `ValueError`. -/
def hex_to_rgbL (l : List Char) : Option (Int × Int × Int) :=
  let s := l.dropWhile (fun c => c = '#')
  match pyIntHex (pySlice s 0 2), pyIntHex (pySlice s 2 4), pyIntHex (pySlice s 4 6) with
  | some r, some g, some b => some (r, g, b)
  | _, _, _ => none

/-- `hex_to_rgb` on strings. -/
def hex_to_rgb (s : String) : Option (Int × Int × Int) :=
  hex_to_rgbL s.data

/-- Hex digits of `n` (lowercase), most significant first; fuel-driven. -/
def toHexAux : Nat → Nat → List Char
  | 0, _ => []
  | fuel + 1, n =>
    if n < 16 then [Nat.digitChar n]
    else toHexAux fuel (n / 16) ++ [Nat.digitChar (n % 16)]

/-- Lowercase hex representation of a natural number. -/
def toHexLower (n : Nat) : List Char := toHexAux (n + 1) n

/-- Left-pad with `'0'` to width `w`. -/
def leftPad0 (w : Nat) (l : List Char) : List Char :=
  List.replicate (w - l.length) '0' ++ l

/-- Python's `'{:02x}'.format(n)`: lowercase hex, zero-padded to width 2,
a sign (counted in the width) for negative values. -/
def py02x (n : Int) : List Char :=
  if n < 0 then '-' :: leftPad0 1 (toHexLower n.natAbs)
  else leftPad0 2 (toHexLower n.toNat)

/-- `rgb_to_hex` from the source: `'#{:02x}{:02x}{:02x}'.format(*rgb)`. -/
def rgbToHexL (rgb : Int × Int × Int) : List Char :=
  '#' :: (py02x rgb.1 ++ py02x rgb.2.1 ++ py02x rgb.2.2)

/-- `rgb_to_hex` on strings. -/
def rgb_to_hex (rgb : Int × Int × Int) : String :=
  String.mk (rgbToHexL rgb)

/-- ASCII fragment of Python's `str.lower`, character-wise. -/
def lowerChar (c : Char) : Char :=
  if 'A' ≤ c ∧ c ≤ 'Z' then Char.ofNat (c.toNat + 32) else c

/-- True when the list begins with `'#'` (`color.startswith('#')`). -/
def startsHash : List Char → Bool
  | [] => false
  | c :: _ => c = '#'

/-- `invert_color` from the source: the `black`/`white` lookup (on the
lowercased value), then the `#` branch via `hex_to_rgb`, inverting each
component as `255 - c`, else the value unchanged.  `none` models the
`ValueError` escaping from `hex_to_rgb`. -/
def invertCore (color : List Char) : Option (List Char) :=
  let lc := color.map lowerChar
  if lc = "black".data then some "white".data
  else if lc = "white".data then some "black".data
  else if startsHash color then
    (hex_to_rgbL color).map
      (fun rgb => rgbToHexL (255 - rgb.1, 255 - rgb.2.1, 255 - rgb.2.2))
  else some color

/-- `invert_color` on strings. -/
def invert_color (s : String) : Option String :=
  (invertCore s.data).map String.mk

/-- `p.isPrefixOf l` as a direct recursion (used by every scanner). -/
def leadsWith : List Char → List Char → Bool
  | [], _ => true
  | _ :: _, [] => false
  | a :: as, b :: bs => a = b && leadsWith as bs

/-- First occurrence of `pat` in `l`: `some (before, after)` with
`l = before ++ pat ++ after`, the occurrence being leftmost; `none` when
`pat` does not occur.  This is the search step shared by the regex
passes. -/
def splitFirst (pat : List Char) : List Char → Option (List Char × List Char)
  | [] => if pat = [] then some ([], []) else none
  | c :: cs =>
    if leadsWith pat (c :: cs) then some ([], (c :: cs).drop pat.length)
    else (splitFirst pat cs).map (fun ab => (c :: ab.1, ab.2))

/-- Substring occurrence as a Bool, mirroring Python's `in`. -/
def containsSub (pat : List Char) : List Char → Bool
  | [] => leadsWith pat []
  | c :: cs => leadsWith pat (c :: cs) || containsSub pat cs

/-- The style-open marker of the pattern `<style>(.*?)</style>`. -/
def sOpen : List Char := "<style>".data

/-- The style-close marker of that pattern. -/
def sClose : List Char := "</style>".data

/-- One pass of `<style>(.*?)</style>` with `re.DOTALL`: the captured
inner texts of all (leftmost, non-greedy, non-overlapping) matches,
paired with the document with those matches deleted.  This single scan
gives both `re.findall(style_pattern, _)` and
`re.sub(style_pattern, '', _)`, which traverse identically. -/
def styleScanAux : Nat → List Char → List (List Char) × List Char
  | 0, l => ([], l)
  | fuel + 1, l =>
    match splitFirst sOpen l with
    | none => ([], l)
    | some (pre, afterOpen) =>
      match splitFirst sClose afterOpen with
      | none => ([], l)
      | some (inner, rest) =>
        let r := styleScanAux fuel rest
        (inner :: r.1, pre ++ r.2)

/-- Style scan with sufficient fuel. -/
def styleScanL (l : List Char) : List (List Char) × List Char :=
  styleScanAux l.length l

/-- `re.findall(r'<style>(.*?)</style>', l, re.DOTALL)`. -/
def styleFindallL (l : List Char) : List (List Char) := (styleScanL l).1

/-- `re.sub(r'<style>(.*?)</style>', '', l, flags=re.DOTALL)`. -/
def styleRemoveAllL (l : List Char) : List Char := (styleScanL l).2

/-- The disqualifying-keyword test:
`any(keyword in style.lower() for keyword in ['@media', 'fill:', 'dark'])`. -/
def hasStyleKeyword (style : List Char) : Bool :=
  containsSub "@media".data (style.map lowerChar)
    || containsSub "fill:".data (style.map lowerChar)
    || containsSub "dark".data (style.map lowerChar)

/-- The preserved style texts: blocks whose text has no keyword. -/
def preservedStylesL (l : List Char) : List (List Char) :=
  (styleFindallL l).filter (fun st => !hasStyleKeyword st)

/-- `re.sub(pat + '"[^"]*"' , '', l)` for a literal prefix `pat` ending in
`'"'` (used with `fill-dark="` and `fill-light="`): at each position, if
the literal matches and a closing quote follows, delete through that
quote and continue after it; otherwise advance one character. -/
def subAttrRemoveAux (pat : List Char) : Nat → List Char → List Char
  | _, [] => []
  | 0, l => l
  | fuel + 1, c :: cs =>
    if leadsWith pat (c :: cs) then
      match splitFirst ['"'] ((c :: cs).drop pat.length) with
      | some vr => subAttrRemoveAux pat fuel vr.2
      | none => c :: subAttrRemoveAux pat fuel cs
    else c :: subAttrRemoveAux pat fuel cs

/-- Attribute removal with sufficient fuel. -/
def subAttrRemoveL (pat l : List Char) : List Char :=
  subAttrRemoveAux pat l.length l

/-- Literal head of the fill pattern `fill="([^"]*)"`. -/
def fillLit : List Char := "fill=\"".data

/-- The literal inside the lookahead `(?!\s+fill-dark)`. -/
def darkLit : List Char := "fill-dark".data

/-- The literal head of the `fill-dark="[^"]*"` removal pattern. -/
def darkAttrLit : List Char := "fill-dark=\"".data

/-- The literal head of the `fill-light="[^"]*"` removal pattern. -/
def lightAttrLit : List Char := "fill-light=\"".data

/-- Python's `\s` on ASCII text: `[ \t\n\r\f\v]`. -/
def reWs (c : Char) : Bool :=
  c = ' ' || c = '\t' || c = '\n' || c = '\x0d' || c = '\x0c' || c = '\x0b'

/-- The lookahead `\s+fill-dark` succeeds on `l` iff a nonempty run of
whitespace is followed by the literal `fill-dark` (backtracking over the
run length is settled by the first character of the literal not being
whitespace, so only the full run can work). -/
def lookaheadDark (l : List Char) : Bool :=
  let w := (l.takeWhile reWs).length
  decide (0 < w) && leadsWith darkLit (l.drop w)

/-- `re.sub(r'fill="([^"]*)"(?!\s+fill-dark)', replace_fill, l)`: at each
position, if `fill="` matches, a closing quote follows and the negative
lookahead passes, replace the match by
`fill="<value>" fill-dark="<invert_color(value)>"` and continue after the
original match; the `none` result models `ValueError` escaping from
`invert_color` inside `replace_fill`. -/
def subFillAux : Nat → List Char → Option (List Char)
  | _, [] => some []
  | 0, l => some l
  | fuel + 1, c :: cs =>
    if leadsWith fillLit (c :: cs) then
      match splitFirst ['"'] ((c :: cs).drop fillLit.length) with
      | some vr =>
        if lookaheadDark vr.2 then
          (subFillAux fuel cs).map (fun t => c :: t)
        else
          match invertCore vr.1 with
          | none => none
          | some inv =>
            (subFillAux fuel vr.2).map
              (fun t => fillLit ++ vr.1 ++ ('"' :: ' ' :: darkAttrLit) ++ inv ++ '"' :: t)
      | none => (subFillAux fuel cs).map (fun t => c :: t)
    else (subFillAux fuel cs).map (fun t => c :: t)

/-- Fill rewriting with sufficient fuel. -/
def subFillL (l : List Char) : Option (List Char) :=
  subFillAux l.length l

/-- The values captured by the fill pass, in match order (whether or not
`invert_color` succeeds on them). -/
def fillValuesAux : Nat → List Char → List (List Char)
  | _, [] => []
  | 0, _ => []
  | fuel + 1, c :: cs =>
    if leadsWith fillLit (c :: cs) then
      match splitFirst ['"'] ((c :: cs).drop fillLit.length) with
      | some vr =>
        if lookaheadDark vr.2 then fillValuesAux fuel cs
        else vr.1 :: fillValuesAux fuel vr.2
      | none => fillValuesAux fuel cs
    else fillValuesAux fuel cs

/-- Captured fill values with sufficient fuel. -/
def fillValuesL (l : List Char) : List (List Char) :=
  fillValuesAux l.length l

/-- `' '.join(preserved_styles)`. -/
def joinSpace : List (List Char) → List Char
  | [] => []
  | [x] => x
  | x :: y :: rest => x ++ ' ' :: joinSpace (y :: rest)

/-- Reinsertion step: when some styles were preserved, wrap their join in
one style element and insert it after the first `'>'` of the content
(`content.find('>')`; a missing `'>'` gives `find = -1`, which inserts
the block at position 0, i.e. in front). -/
def reinsertL (preserved : List (List Char)) (content : List Char) : List Char :=
  match preserved with
  | [] => content
  | _ :: _ =>
    let block := sOpen ++ joinSpace preserved ++ sClose
    match splitFirst ['>'] content with
    | some pq => pq.1 ++ '>' :: (block ++ pq.2)
    | none => block ++ content

/-- The document after style removal and the two attribute strips; the
fill pass runs on this. -/
def strippedContentL (l : List Char) : List Char :=
  subAttrRemoveL lightAttrLit (subAttrRemoveL darkAttrLit (styleRemoveAllL l))

/-- `add_dark_mode_attributes` from the source, over `List Char`: extract
and classify style blocks, remove all of them, strip existing `fill-dark`
and `fill-light` attributes, rewrite the remaining fill attributes, then
reinsert the preserved style texts.  `none` models the `ValueError`
raised by `int(_, 16)` on a malformed hex fill value. -/
def addDarkCoreL (l : List Char) : Option (List Char) :=
  (subFillL (strippedContentL l)).map (reinsertL (preservedStylesL l))

/-- `add_dark_mode_attributes` on strings. -/
def add_dark_mode_attributes (s : String) : Option String :=
  (addDarkCoreL s.data).map String.mk

/-- Style contents of a string document (used to state output invariants). -/
def styleContents (s : String) : List String :=
  (styleFindallL s.data).map String.mk

/-- Count of (non-overlapping, leftmost) occurrences of `pat`. -/
def countSubAux (pat : List Char) : Nat → List Char → Nat
  | _, [] => 0
  | 0, _ => 0
  | fuel + 1, c :: cs =>
    if leadsWith pat (c :: cs) then 1 + countSubAux pat fuel ((c :: cs).drop pat.length)
    else countSubAux pat fuel cs

/-- Occurrence count with sufficient fuel. -/
def countSub (pat : List Char) (s : String) : Nat :=
  countSubAux pat s.data.length s.data

/-- One file of a source-folder snapshot: its name, the result of reading
it as UTF-8 (`none` models `IOError`/`UnicodeDecodeError`), and whether
writing the destination file succeeds. -/
structure SvgFile where
  name : String
  readContent : Option String
  writeOk : Bool
deriving DecidableEq

/-- A source-folder snapshot for `process_folder`. -/
structure Folder where
  isDir : Bool
  entries : List SvgFile
deriving DecidableEq

/-- The exceptions `process_folder` can propagate. -/
inductive PyError where
  | valueError (msg : String)
  | ioError (msg : String)
deriving DecidableEq

/-- `filename.endswith(".svg")`. -/
def endsWithSvg (s : String) : Bool :=
  leadsWith ".svg".data.reverse s.data.reverse

/-- `process_svg_file` from the source: read (may raise
`IOError`/`UnicodeDecodeError`), run `add_dark_mode_attributes` (whose
`ValueError` is not caught by this function), then write (may raise
`IOError`). -/
def process_svg_file (f : SvgFile) : Except PyError String :=
  match f.readContent with
  | none => .error (.ioError f.name)
  | some content =>
    match add_dark_mode_attributes content with
    | none => .error (.valueError "invalid literal for int() with base 16")
    | some out => if f.writeOk then .ok out else .error (.ioError f.name)

/-- The `for filename in os.listdir(...)` loop of `process_folder`:
`.svg` entries are processed in order; `IOError`/`UnicodeDecodeError` is
collected into the error list and the loop continues; any other
exception (the `ValueError` from a malformed hex fill) is not caught by
the loop and aborts it.  Returns the written files, the collected
errors, and the aborting exception if any. -/
def processLoop :
    List SvgFile → List (String × String) → List (String × String) →
      List (String × String) × List (String × String) × Option PyError
  | [], written, errs => (written, errs, none)
  | f :: rest, written, errs =>
    if endsWithSvg f.name then
      match process_svg_file f with
      | .ok out => processLoop rest (written ++ [(f.name, out)]) errs
      | .error (.ioError m) => processLoop rest written (errs ++ [(f.name, m)])
      | .error e => (written, errs, some e)
    else processLoop rest written errs

/-- `process_folder` from the source: reject a non-directory source with
`ValueError` before touching any file; otherwise run the loop and, when
the collected error list is nonempty, raise the aggregate
`ValueError(f"Failed to process {len(errors)} files")`.  Returns the
files written alongside the final outcome. -/
def process_folder (fs : Folder) :
    List (String × String) × Except PyError Unit :=
  if fs.isDir then
    let r := processLoop fs.entries [] []
    match r.2.2 with
    | some e => (r.1, .error e)
    | none =>
      if r.2.1.isEmpty then (r.1, .ok ())
      else
        (r.1,
         .error (.valueError ("Failed to process " ++ toString r.2.1.length ++ " files")))
  else ([], .error (.valueError "Source path is not a valid directory"))

/-- The `.svg` entries of a folder, in listing order. -/
def svgEntries (fs : Folder) : List SvgFile :=
  fs.entries.filter (fun f => endsWithSvg f.name)

/-- An outcome of `process_svg_file` that the batch loop does not catch. -/
def isAbortError : Except PyError String → Bool
  | .error (.valueError _) => true
  | _ => false

theorem processLoop_spec (entries : List SvgFile) (w e : List (String × String))
    (hok : ∀ f ∈ entries, endsWithSvg f.name = true →
      isAbortError (process_svg_file f) = false) :
    ∃ w' e', processLoop entries w e = (w ++ w', e ++ e', none)
      ∧ w'.length + e'.length = (entries.filter (fun f => endsWithSvg f.name)).length
      ∧ ∀ f ∈ entries.filter (fun f => endsWithSvg f.name),
          (∃ p ∈ w', p.1 = f.name) ∨ (∃ p ∈ e', p.1 = f.name) := by
  induction entries generalizing w e with
  | nil => exact ⟨[], [], by simp [processLoop], by simp, by simp⟩
  | cons f rest ih =>
    have hokf := hok f (by simp)
    have hokr : ∀ g ∈ rest, endsWithSvg g.name = true →
        isAbortError (process_svg_file g) = false := fun g hg => hok g (by simp [hg])
    by_cases hsvg : endsWithSvg f.name = true
    · cases hpf : process_svg_file f with
      | ok out =>
        obtain ⟨w', e', hl, hlen, hcov⟩ := ih (w ++ [(f.name, out)]) e hokr
        refine ⟨(f.name, out) :: w', e', ?_, ?_, ?_⟩
        · simpa [processLoop, hsvg, hpf] using hl
        · have hf : List.filter (fun g => endsWithSvg g.name) (f :: rest)
              = f :: List.filter (fun g => endsWithSvg g.name) rest := by
            simp [List.filter_cons, hsvg]
          rw [hf]; simp only [List.length_cons]; omega
        · intro g hg
          have hf : List.filter (fun g => endsWithSvg g.name) (f :: rest)
              = f :: List.filter (fun g => endsWithSvg g.name) rest := by
            simp [List.filter_cons, hsvg]
          rw [hf] at hg
          rcases List.mem_cons.mp hg with hg | hg
          · subst hg; exact Or.inl ⟨(g.name, out), by simp⟩
          · rcases hcov g hg with ⟨p, hp, hpn⟩ | ⟨p, hp, hpn⟩
            · exact Or.inl ⟨p, by simp [hp], hpn⟩
            · exact Or.inr ⟨p, hp, hpn⟩
      | error pe =>
        cases pe with
        | valueError m =>
          have h2 := hokf hsvg
          rw [hpf] at h2
          simp [isAbortError] at h2
        | ioError m =>
          obtain ⟨w', e', hl, hlen, hcov⟩ := ih w (e ++ [(f.name, m)]) hokr
          refine ⟨w', (f.name, m) :: e', ?_, ?_, ?_⟩
          · simpa [processLoop, hsvg, hpf] using hl
          · have hf : List.filter (fun g => endsWithSvg g.name) (f :: rest)
                = f :: List.filter (fun g => endsWithSvg g.name) rest := by
              simp [List.filter_cons, hsvg]
            rw [hf]; simp only [List.length_cons]; omega
          · intro g hg
            have hf : List.filter (fun g => endsWithSvg g.name) (f :: rest)
                = f :: List.filter (fun g => endsWithSvg g.name) rest := by
              simp [List.filter_cons, hsvg]
            rw [hf] at hg
            rcases List.mem_cons.mp hg with hg | hg
            · subst hg; exact Or.inr ⟨(g.name, m), by simp⟩
            · rcases hcov g hg with ⟨p, hp, hpn⟩ | ⟨p, hp, hpn⟩
              · exact Or.inl ⟨p, hp, hpn⟩
              · exact Or.inr ⟨p, by simp [hp], hpn⟩
    · have hsvg' : endsWithSvg f.name = false := by simpa using hsvg
      obtain ⟨w', e', hl, hlen, hcov⟩ := ih w e hokr
      refine ⟨w', e', ?_, ?_, ?_⟩
      · simpa [processLoop, hsvg'] using hl
      · have hf : List.filter (fun g => endsWithSvg g.name) (f :: rest)
            = List.filter (fun g => endsWithSvg g.name) rest := by
          simp [List.filter_cons, hsvg']
        rw [hf]; exact hlen
      · intro g hg
        have hf : List.filter (fun g => endsWithSvg g.name) (f :: rest)
            = List.filter (fun g => endsWithSvg g.name) rest := by
          simp [List.filter_cons, hsvg']
        rw [hf] at hg
        exact hcov g hg

/-- Claim C8 (confirmed): when `process_folder` runs on a valid source
directory and no file triggers the uncaught `ValueError` (per-file
failures are only the collected unreadable-file / invalid-UTF-8 kind), a
per-file failure never stops the remaining `.svg` files: every `.svg`
entry ends up either written or in the error list; only after the whole
loop, if the error count is nonzero, a single aggregate `ValueError`
whose message includes that count is raised; and a non-directory source
raises a validation error before any file is touched. -/
theorem C8_process_folder_batch (fs : Folder)
    (hok : ∀ f ∈ fs.entries, endsWithSvg f.name = true →
      isAbortError (process_svg_file f) = false) :
    (fs.isDir = false →
      process_folder fs = ([], .error (.valueError "Source path is not a valid directory")))
    ∧ (fs.isDir = true →
      ∃ written errs,
        processLoop fs.entries [] [] = (written, errs, none)
        ∧ process_folder fs =
            (written,
              if errs.isEmpty then Except.ok ()
              else Except.error (.valueError
                ("Failed to process " ++ toString errs.length ++ " files")))
        ∧ written.length + errs.length = (svgEntries fs).length
        ∧ ∀ f ∈ svgEntries fs, (∃ p ∈ written, p.1 = f.name) ∨ ∃ p ∈ errs, p.1 = f.name) := by
  constructor
  · intro h
    simp [process_folder, h]
  · intro h
    obtain ⟨w', e', hl, hlen, hcov⟩ := processLoop_spec fs.entries [] [] hok
    simp only [List.nil_append] at hl
    refine ⟨w', e', hl, ?_, hlen, hcov⟩
    by_cases he : e'.isEmpty
    · simp [process_folder, h, hl, he]
    · have he' : e'.isEmpty = false := by simpa using he
      simp [process_folder, h, hl, he']

theorem C8_witness :
    ∃ written errs,
      processLoop
        [⟨"a.svg", some "<p fill=\"black\"/>", true⟩,
         ⟨"b.svg", none, true⟩,
         ⟨"c.txt", none, true⟩] [] [] = (written, errs, none)
      ∧ process_folder ⟨true,
          [⟨"a.svg", some "<p fill=\"black\"/>", true⟩,
           ⟨"b.svg", none, true⟩,
           ⟨"c.txt", none, true⟩]⟩ =
          (written,
            if errs.isEmpty then Except.ok ()
            else Except.error (.valueError
              ("Failed to process " ++ toString errs.length ++ " files")))
      ∧ written.length + errs.length =
          (svgEntries ⟨true,
            [⟨"a.svg", some "<p fill=\"black\"/>", true⟩,
             ⟨"b.svg", none, true⟩,
             ⟨"c.txt", none, true⟩]⟩).length
      ∧ ∀ f ∈ svgEntries ⟨true,
            [⟨"a.svg", some "<p fill=\"black\"/>", true⟩,
             ⟨"b.svg", none, true⟩,
             ⟨"c.txt", none, true⟩]⟩,
          (∃ p ∈ written, p.1 = f.name) ∨ ∃ p ∈ errs, p.1 = f.name :=
  (C8_process_folder_batch
    ⟨true,
      [⟨"a.svg", some "<p fill=\"black\"/>", true⟩,
       ⟨"b.svg", none, true⟩,
       ⟨"c.txt", none, true⟩]⟩ (by decide)).2 rfl

/-- `Char` order coincides with the order on code points. -/
theorem char_le_toNat {a b : Char} (h : a ≤ b) : a.toNat ≤ b.toNat := h

/-- Characters with distinct code points differ. -/
theorem char_ne_of_toNat {a b : Char} (h : a.toNat ≠ b.toNat) : a ≠ b :=
  fun he => h (congrArg Char.toNat he)

/-- The code-point ranges behind a successful `hexDigit?`. -/
theorem hexDigit_range {c : Char} {d : Nat} (h : hexDigit? c = some d) :
    d < 16 ∧ ((48 ≤ c.toNat ∧ c.toNat ≤ 57 ∧ d = c.toNat - 48)
      ∨ (97 ≤ c.toNat ∧ c.toNat ≤ 102 ∧ d = c.toNat - 87)
      ∨ (65 ≤ c.toNat ∧ c.toNat ≤ 70 ∧ d = c.toNat - 55)) := by
  unfold hexDigit? at h
  split_ifs at h with h1 h2 h3
  · cases h
    have ha := char_le_toNat h1.1
    have hb := char_le_toNat h1.2
    have e1 : ('0').toNat = 48 := rfl
    have e2 : ('9').toNat = 57 := rfl
    exact ⟨by omega, Or.inl ⟨by omega, by omega, by omega⟩⟩
  · cases h
    have ha := char_le_toNat h2.1
    have hb := char_le_toNat h2.2
    have e1 : ('a').toNat = 97 := rfl
    have e2 : ('f').toNat = 102 := rfl
    exact ⟨by omega, Or.inr (Or.inl ⟨by omega, by omega, by omega⟩)⟩
  · cases h
    have ha := char_le_toNat h3.1
    have hb := char_le_toNat h3.2
    have e1 : ('A').toNat = 65 := rfl
    have e2 : ('F').toNat = 70 := rfl
    exact ⟨by omega, Or.inr (Or.inr ⟨by omega, by omega, by omega⟩)⟩

/-- A hex digit is none of the special characters the parsers test for,
and is no whitespace. -/
theorem hexDigit_facts {c : Char} {d : Nat} (h : hexDigit? c = some d) :
    pyWs c = false ∧ c ≠ '_' ∧ c ≠ '+' ∧ c ≠ '-' ∧ c ≠ 'x' ∧ c ≠ 'X'
      ∧ c ≠ '#' ∧ c ≠ '"' ∧ d < 16 := by
  obtain ⟨hd, hr⟩ := hexDigit_range h
  have hlo : 48 ≤ c.toNat ∨ 65 ≤ c.toNat := by omega
  have hhi : c.toNat ≤ 102 := by omega
  have hno : ¬ (58 ≤ c.toNat ∧ c.toNat ≤ 64) := by omega
  have hno2 : ¬ (71 ≤ c.toNat ∧ c.toNat ≤ 96) := by omega
  refine ⟨?_, ?_, ?_, ?_, ?_, ?_, ?_, ?_, hd⟩
  · simp only [pyWs, Bool.or_eq_false_iff, decide_eq_false_iff_not]
    have e1 : (' ').toNat = 32 := rfl
    have e2 : ('\t').toNat = 9 := rfl
    have e3 : ('\n').toNat = 10 := rfl
    have e4 : ('\x0d').toNat = 13 := rfl
    have e5 : ('\x0b').toNat = 11 := rfl
    have e6 : ('\x0c').toNat = 12 := rfl
    exact ⟨⟨⟨⟨⟨char_ne_of_toNat (by omega), char_ne_of_toNat (by omega)⟩,
      char_ne_of_toNat (by omega)⟩, char_ne_of_toNat (by omega)⟩,
      char_ne_of_toNat (by omega)⟩, char_ne_of_toNat (by omega)⟩
  · exact char_ne_of_toNat (by have : ('_').toNat = 95 := rfl; omega)
  · exact char_ne_of_toNat (by have : ('+').toNat = 43 := rfl; omega)
  · exact char_ne_of_toNat (by have : ('-').toNat = 45 := rfl; omega)
  · exact char_ne_of_toNat (by have : ('x').toNat = 120 := rfl; omega)
  · exact char_ne_of_toNat (by have : ('X').toNat = 88 := rfl; omega)
  · exact char_ne_of_toNat (by have : ('#').toNat = 35 := rfl; omega)
  · exact char_ne_of_toNat (by have : ('"').toNat = 34 := rfl; omega)

/-- `int(_, 16)` on a two-hex-digit string. -/
theorem pyIntHex_pair {a b : Char} {da db : Nat}
    (ha : hexDigit? a = some da) (hb : hexDigit? b = some db) :
    pyIntHex [a, b] = some ((16 * da + db : Nat) : Int) := by
  obtain ⟨fa1, fa2, fa3, fa4, fa5, fa6, -, -, -⟩ := hexDigit_facts ha
  obtain ⟨fb1, fb2, -, -, fb5, fb6, -, -, -⟩ := hexDigit_facts hb
  unfold pyIntHex stripPyWs
  simp [List.dropWhile, fa1, fb1, fa3, fa4, parseBody, fb5, fb6, parseDigits, fa2, ha,
    parseDigitsAux, fb2, hb, Int.ofNat_eq_natCast]

/-- `toHexLower` on a single hex digit. -/
theorem toHexLower_small {t : Nat} (h : t < 16) : toHexLower t = [Nat.digitChar t] := by
  unfold toHexLower toHexAux
  simp [h]

/-- `toHexLower` on a two-digit value. -/
theorem toHexLower_two {t : Nat} (h1 : 16 ≤ t) (h2 : t ≤ 255) :
    toHexLower t = [Nat.digitChar (t / 16), Nat.digitChar (t % 16)] := by
  obtain ⟨t', rfl⟩ : ∃ t', t = t' + 1 := ⟨t - 1, by omega⟩
  have hn : ¬ t' + 1 < 16 := by omega
  have hq : (t' + 1) / 16 < 16 := by omega
  show toHexAux (t' + 1 + 1) (t' + 1) = _
  rw [show toHexAux (t' + 1 + 1) (t' + 1)
      = if t' + 1 < 16 then [Nat.digitChar (t' + 1)]
        else toHexAux (t' + 1) ((t' + 1) / 16) ++ [Nat.digitChar ((t' + 1) % 16)] from rfl]
  rw [if_neg hn]
  rw [show toHexAux (t' + 1) ((t' + 1) / 16)
      = if (t' + 1) / 16 < 16 then [Nat.digitChar ((t' + 1) / 16)]
        else toHexAux t' (((t' + 1) / 16) / 16) ++ [Nat.digitChar (((t' + 1) / 16) % 16)] from rfl]
  rw [if_pos hq]
  rfl

/-- `Nat.digitChar` emits valid hex digits below 16. -/
theorem hexDigit_digitChar {m : Nat} (h : m < 16) : hexDigit? (Nat.digitChar m) = some m := by
  interval_cases m <;> decide

/-- `Nat.digitChar` emits lowercase hex characters below 16. -/
theorem digitChar_lowHex {m : Nat} (h : m < 16) :
    Nat.digitChar m ∈ "0123456789abcdef".data := by
  interval_cases m <;> decide

/-- Shape of `'{:02x}'` output for a byte value: two hex characters from
the lowercase alphabet whose value recovers the input. -/
theorem py02x_spec {n : Int} (h0 : 0 ≤ n) (h : n ≤ 255) :
    ∃ c1 c2 d1 d2, py02x n = [c1, c2] ∧ hexDigit? c1 = some d1 ∧ hexDigit? c2 = some d2
      ∧ 16 * d1 + d2 = n.toNat
      ∧ c1 ∈ "0123456789abcdef".data ∧ c2 ∈ "0123456789abcdef".data := by
  have hn : ¬ n < 0 := by omega
  unfold py02x
  rw [if_neg hn]
  by_cases hlt : n.toNat < 16
  · rw [toHexLower_small hlt]
    exact ⟨'0', Nat.digitChar n.toNat, 0, n.toNat, by simp [leftPad0], by decide,
      hexDigit_digitChar hlt, by omega, by decide, digitChar_lowHex hlt⟩
  · have h16 : 16 ≤ n.toNat := by omega
    have h255 : n.toNat ≤ 255 := by omega
    rw [toHexLower_two h16 h255]
    have hq : n.toNat / 16 < 16 := by omega
    have hr : n.toNat % 16 < 16 := by omega
    exact ⟨Nat.digitChar (n.toNat / 16), Nat.digitChar (n.toNat % 16), n.toNat / 16,
      n.toNat % 16, by simp [leftPad0], hexDigit_digitChar hq, hexDigit_digitChar hr,
      by omega, digitChar_lowHex hq, digitChar_lowHex hr⟩

/-- On a value starting with `'#'`, `invert_color` takes the hex branch. -/
theorem invertCore_hashHead (l : List Char) :
    invertCore ('#' :: l) = (hex_to_rgbL ('#' :: l)).map
      (fun rgb => rgbToHexL (255 - rgb.1, 255 - rgb.2.1, 255 - rgb.2.2)) := by
  unfold invertCore
  have h1 : ('#' :: l).map lowerChar ≠ "black".data := by
    intro h
    rw [List.map_cons] at h
    injection h with hh _
    exact absurd hh (by decide)
  have h2 : ('#' :: l).map lowerChar ≠ "white".data := by
    intro h
    rw [List.map_cons] at h
    injection h with hh _
    exact absurd hh (by decide)
  rw [if_neg h1, if_neg h2, if_pos (show startsHash ('#' :: l) = true from rfl)]

/-- `hex_to_rgb` on `'#'` followed by six hex digits (and anything after
them, which the slicing ignores). -/
theorem hex_to_rgbL_hash6 {c1 c2 c3 c4 c5 c6 : Char} {d1 d2 d3 d4 d5 d6 : Nat}
    (rest : List Char)
    (h1 : hexDigit? c1 = some d1) (h2 : hexDigit? c2 = some d2)
    (h3 : hexDigit? c3 = some d3) (h4 : hexDigit? c4 = some d4)
    (h5 : hexDigit? c5 = some d5) (h6 : hexDigit? c6 = some d6) :
    hex_to_rgbL ('#' :: c1 :: c2 :: c3 :: c4 :: c5 :: c6 :: rest)
      = some (((16 * d1 + d2 : Nat) : Int), ((16 * d3 + d4 : Nat) : Int),
          ((16 * d5 + d6 : Nat) : Int)) := by
  obtain ⟨-, -, -, -, -, -, hch, -, -⟩ := hexDigit_facts h1
  unfold hex_to_rgbL
  have hdw : ('#' :: c1 :: c2 :: c3 :: c4 :: c5 :: c6 :: rest).dropWhile (fun c => c = '#')
      = c1 :: c2 :: c3 :: c4 :: c5 :: c6 :: rest := by
    simp [List.dropWhile_cons, hch]
  rw [hdw]
  have s1 : pySlice (c1 :: c2 :: c3 :: c4 :: c5 :: c6 :: rest) 0 2 = [c1, c2] := rfl
  have s2 : pySlice (c1 :: c2 :: c3 :: c4 :: c5 :: c6 :: rest) 2 4 = [c3, c4] := rfl
  have s3 : pySlice (c1 :: c2 :: c3 :: c4 :: c5 :: c6 :: rest) 4 6 = [c5, c6] := rfl
  simp only [s1, s2, s3, pyIntHex_pair h1 h2, pyIntHex_pair h3 h4, pyIntHex_pair h5 h6]

/-- `invert_color` on `'#'` followed by six hex digits: component-wise
`255 - c` re-encoded through `rgb_to_hex`. -/
theorem invertCore_hex6 {c1 c2 c3 c4 c5 c6 : Char} {d1 d2 d3 d4 d5 d6 : Nat}
    (rest : List Char)
    (h1 : hexDigit? c1 = some d1) (h2 : hexDigit? c2 = some d2)
    (h3 : hexDigit? c3 = some d3) (h4 : hexDigit? c4 = some d4)
    (h5 : hexDigit? c5 = some d5) (h6 : hexDigit? c6 = some d6) :
    invertCore ('#' :: c1 :: c2 :: c3 :: c4 :: c5 :: c6 :: rest)
      = some (rgbToHexL (255 - ((16 * d1 + d2 : Nat) : Int),
          255 - ((16 * d3 + d4 : Nat) : Int), 255 - ((16 * d5 + d6 : Nat) : Int))) := by
  rw [invertCore_hashHead, hex_to_rgbL_hash6 rest h1 h2 h3 h4 h5 h6]
  rfl

/-- `invert_color` inverts any well-formed `rgb_to_hex` output. -/
theorem invertCore_rgbToHexL {r g b : Int}
    (hr0 : 0 ≤ r) (hr : r ≤ 255) (hg0 : 0 ≤ g) (hgl : g ≤ 255)
    (hb0 : 0 ≤ b) (hbl : b ≤ 255) :
    invertCore (rgbToHexL (r, g, b)) = some (rgbToHexL (255 - r, 255 - g, 255 - b)) := by
  obtain ⟨a1, a2, da1, da2, hpa, ha1, ha2, hsa, -, -⟩ := py02x_spec hr0 hr
  obtain ⟨b1, b2, db1, db2, hpb, hb1, hb2, hsb, -, -⟩ := py02x_spec hg0 hgl
  obtain ⟨e1, e2, de1, de2, hpc, he1, he2, hsc, -, -⟩ := py02x_spec hb0 hbl
  have hshape : rgbToHexL (r, g, b) = '#' :: a1 :: a2 :: b1 :: b2 :: e1 :: e2 :: [] := by
    show '#' :: (py02x r ++ py02x g ++ py02x b) = _
    rw [hpa, hpb, hpc]
    rfl
  rw [hshape, invertCore_hex6 [] ha1 ha2 hb1 hb2 he1 he2]
  have er : ((16 * da1 + da2 : Nat) : Int) = r := by
    rw [hsa]; exact Int.toNat_of_nonneg hr0
  have eg : ((16 * db1 + db2 : Nat) : Int) = g := by
    rw [hsb]; exact Int.toNat_of_nonneg hg0
  have eb : ((16 * de1 + de2 : Nat) : Int) = b := by
    rw [hsc]; exact Int.toNat_of_nonneg hb0
  rw [er, eg, eb]

/-- Claim C3 (corrected, amended): the `black`/`white` lookup on the
lowercased value and the six-hex-digit inversion branch behave as the
claim states, and a value that is no known name and does not begin with
`'#'` is returned unchanged.  The claim's final "otherwise the value is
returned unchanged" is wrong for values that begin with `'#'` without
parsing as hex: there `invert_color` raises (see the counterexample). -/
theorem C3_invert_color_cases (s : String) :
    (s.data.map lowerChar = "black".data → invert_color s = some "white")
    ∧ (s.data.map lowerChar = "white".data → invert_color s = some "black")
    ∧ (∀ c1 c2 c3 c4 c5 c6 d1 d2 d3 d4 d5 d6,
        s.data = ['#', c1, c2, c3, c4, c5, c6] →
        hexDigit? c1 = some d1 → hexDigit? c2 = some d2 → hexDigit? c3 = some d3 →
        hexDigit? c4 = some d4 → hexDigit? c5 = some d5 → hexDigit? c6 = some d6 →
        invert_color s = some (rgb_to_hex
          (255 - ((16 * d1 + d2 : Nat) : Int), 255 - ((16 * d3 + d4 : Nat) : Int),
           255 - ((16 * d5 + d6 : Nat) : Int))))
    ∧ (startsHash s.data = false → s.data.map lowerChar ≠ "black".data →
        s.data.map lowerChar ≠ "white".data → invert_color s = some s) := by
  refine ⟨?_, ?_, ?_, ?_⟩
  · intro h
    unfold invert_color invertCore
    simp only []
    rw [if_pos h]
    rfl
  · intro h
    unfold invert_color invertCore
    simp only []
    have hne : s.data.map lowerChar ≠ "black".data := by rw [h]; decide
    rw [if_neg hne, if_pos h]
    rfl
  · intro c1 c2 c3 c4 c5 c6 d1 d2 d3 d4 d5 d6 hs h1 h2 h3 h4 h5 h6
    unfold invert_color
    rw [hs, show (['#', c1, c2, c3, c4, c5, c6] : List Char)
        = '#' :: c1 :: c2 :: c3 :: c4 :: c5 :: c6 :: [] from rfl,
      invertCore_hex6 [] h1 h2 h3 h4 h5 h6]
    rfl
  · intro hsh hb hw
    unfold invert_color invertCore
    simp only []
    rw [if_neg hb, if_neg hw, if_neg (by simp [hsh])]
    rfl

/-- Claim C3 counterexample: `invert_color("#FFF")` does not return the
value unchanged; `int('', 16)` on the empty third slice raises
`ValueError` (modelled as `none`). -/
theorem C3_cex : invert_color "#FFF" = none := by decide

/-- Witness for `C3_invert_color_cases` at concrete inputs. -/
theorem C3_witness :
    invert_color "Black" = some "white"
    ∧ invert_color "#abcdef" = some (rgb_to_hex
        (255 - ((16 * 10 + 11 : Nat) : Int), 255 - ((16 * 12 + 13 : Nat) : Int),
         255 - ((16 * 14 + 15 : Nat) : Int)))
    ∧ invert_color "red" = some "red" :=
  ⟨(C3_invert_color_cases "Black").1 (by decide),
   (C3_invert_color_cases "#abcdef").2.2.1 'a' 'b' 'c' 'd' 'e' 'f' 10 11 12 13 14 15
     (by decide) (by decide) (by decide) (by decide) (by decide) (by decide) (by decide),
   (C3_invert_color_cases "red").2.2.2 (by decide) (by decide) (by decide)⟩

/-- Claim C4 counterexample: for the valid 6-hex-digit color `#ABCDEF`
(uppercase, which the claim includes), double inversion returns the
lowercased `#abcdef`, not the original string. -/
theorem C4_cex : (invert_color "#ABCDEF").bind invert_color ≠ some "#ABCDEF" := by decide

/-- Claim C4 (corrected, amended): double inversion is the identity on
every color of the form `rgb_to_hex (r, g, b)` — exactly the `'#'` plus
six lowercase hex digit colors — and on `black` and `white`.  For
uppercase hex input the round trip returns the lowercased equivalent
instead (see the counterexample). -/
theorem C4_double_inversion (r g b : Int)
    (hr0 : 0 ≤ r) (hr : r ≤ 255) (hg0 : 0 ≤ g) (hgl : g ≤ 255)
    (hb0 : 0 ≤ b) (hbl : b ≤ 255) :
    (invert_color (rgb_to_hex (r, g, b))).bind invert_color = some (rgb_to_hex (r, g, b))
    ∧ (invert_color "black").bind invert_color = some "black"
    ∧ (invert_color "white").bind invert_color = some "white" := by
  refine ⟨?_, by decide, by decide⟩
  have e1 : invert_color (rgb_to_hex (r, g, b))
      = some (String.mk (rgbToHexL (255 - r, 255 - g, 255 - b))) := by
    show (invertCore (rgbToHexL (r, g, b))).map String.mk = _
    rw [invertCore_rgbToHexL hr0 hr hg0 hgl hb0 hbl]
    rfl
  rw [e1]
  show invert_color (String.mk (rgbToHexL (255 - r, 255 - g, 255 - b))) = _
  have e2 : invert_color (String.mk (rgbToHexL (255 - r, 255 - g, 255 - b)))
      = some (String.mk (rgbToHexL (255 - (255 - r), 255 - (255 - g), 255 - (255 - b)))) := by
    show (invertCore (rgbToHexL (255 - r, 255 - g, 255 - b))).map String.mk = _
    rw [invertCore_rgbToHexL (by omega) (by omega) (by omega) (by omega) (by omega) (by omega)]
    rfl
  rw [e2]
  have er : (255 : Int) - (255 - r) = r := by omega
  have eg : (255 : Int) - (255 - g) = g := by omega
  have eb : (255 : Int) - (255 - b) = b := by omega
  rw [er, eg, eb]
  rfl

/-- Witness for `C4_double_inversion` at `#000000`. -/
theorem C4_witness :
    (invert_color (rgb_to_hex (0, 0, 0))).bind invert_color = some (rgb_to_hex (0, 0, 0))
    ∧ (invert_color "black").bind invert_color = some "black"
    ∧ (invert_color "white").bind invert_color = some "white" :=
  C4_double_inversion 0 0 0 (by decide) (by decide) (by decide) (by decide) (by decide)
    (by decide)

/-- Claim C9 (confirmed): for every input beginning with `'#'` whose next
six characters are hex digits, `invert_color` returns the 7-character
lowercase `#rrggbb` string computed from those six digits only; any
further characters are ignored and dropped. -/
theorem C9_hex_extra_chars (c1 c2 c3 c4 c5 c6 : Char) (d1 d2 d3 d4 d5 d6 : Nat)
    (rest : List Char)
    (h1 : hexDigit? c1 = some d1) (h2 : hexDigit? c2 = some d2)
    (h3 : hexDigit? c3 = some d3) (h4 : hexDigit? c4 = some d4)
    (h5 : hexDigit? c5 = some d5) (h6 : hexDigit? c6 = some d6) :
    invert_color (String.mk ('#' :: c1 :: c2 :: c3 :: c4 :: c5 :: c6 :: rest))
      = some (rgb_to_hex (255 - ((16 * d1 + d2 : Nat) : Int),
          255 - ((16 * d3 + d4 : Nat) : Int), 255 - ((16 * d5 + d6 : Nat) : Int)))
    ∧ invert_color (String.mk ('#' :: c1 :: c2 :: c3 :: c4 :: c5 :: c6 :: rest))
      = invert_color (String.mk ['#', c1, c2, c3, c4, c5, c6])
    ∧ (rgb_to_hex (255 - ((16 * d1 + d2 : Nat) : Int), 255 - ((16 * d3 + d4 : Nat) : Int),
        255 - ((16 * d5 + d6 : Nat) : Int))).data.length = 7
    ∧ ∀ c ∈ (rgb_to_hex (255 - ((16 * d1 + d2 : Nat) : Int),
        255 - ((16 * d3 + d4 : Nat) : Int), 255 - ((16 * d5 + d6 : Nat) : Int))).data.drop 1,
        c ∈ "0123456789abcdef".data := by
  have hd1 := (hexDigit_facts h1).2.2.2.2.2.2.2.2
  have hd2 := (hexDigit_facts h2).2.2.2.2.2.2.2.2
  have hd3 := (hexDigit_facts h3).2.2.2.2.2.2.2.2
  have hd4 := (hexDigit_facts h4).2.2.2.2.2.2.2.2
  have hd5 := (hexDigit_facts h5).2.2.2.2.2.2.2.2
  have hd6 := (hexDigit_facts h6).2.2.2.2.2.2.2.2
  have k1 : invert_color (String.mk ('#' :: c1 :: c2 :: c3 :: c4 :: c5 :: c6 :: rest))
      = some (rgb_to_hex (255 - ((16 * d1 + d2 : Nat) : Int),
          255 - ((16 * d3 + d4 : Nat) : Int), 255 - ((16 * d5 + d6 : Nat) : Int))) := by
    show (invertCore ('#' :: c1 :: c2 :: c3 :: c4 :: c5 :: c6 :: rest)).map String.mk = _
    rw [invertCore_hex6 rest h1 h2 h3 h4 h5 h6]
    rfl
  have k2 : invert_color (String.mk ['#', c1, c2, c3, c4, c5, c6])
      = some (rgb_to_hex (255 - ((16 * d1 + d2 : Nat) : Int),
          255 - ((16 * d3 + d4 : Nat) : Int), 255 - ((16 * d5 + d6 : Nat) : Int))) := by
    show (invertCore ('#' :: c1 :: c2 :: c3 :: c4 :: c5 :: c6 :: [])).map String.mk = _
    rw [invertCore_hex6 [] h1 h2 h3 h4 h5 h6]
    rfl
  obtain ⟨x1, x2, -, -, hpx, -, -, -, mx1, mx2⟩ :=
    py02x_spec (show (0:Int) ≤ 255 - ((16 * d1 + d2 : Nat) : Int) by omega)
      (show (255:Int) - ((16 * d1 + d2 : Nat) : Int) ≤ 255 by omega)
  obtain ⟨y1, y2, -, -, hpy, -, -, -, my1, my2⟩ :=
    py02x_spec (show (0:Int) ≤ 255 - ((16 * d3 + d4 : Nat) : Int) by omega)
      (show (255:Int) - ((16 * d3 + d4 : Nat) : Int) ≤ 255 by omega)
  obtain ⟨z1, z2, -, -, hpz, -, -, -, mz1, mz2⟩ :=
    py02x_spec (show (0:Int) ≤ 255 - ((16 * d5 + d6 : Nat) : Int) by omega)
      (show (255:Int) - ((16 * d5 + d6 : Nat) : Int) ≤ 255 by omega)
  have hshape : (rgb_to_hex (255 - ((16 * d1 + d2 : Nat) : Int),
      255 - ((16 * d3 + d4 : Nat) : Int), 255 - ((16 * d5 + d6 : Nat) : Int))).data
      = ['#', x1, x2, y1, y2, z1, z2] := by
    show '#' :: (py02x (255 - ((16 * d1 + d2 : Nat) : Int))
        ++ py02x (255 - ((16 * d3 + d4 : Nat) : Int))
        ++ py02x (255 - ((16 * d5 + d6 : Nat) : Int))) = _
    rw [hpx, hpy, hpz]
    rfl
  refine ⟨k1, by rw [k1, k2], by rw [hshape]; rfl, ?_⟩
  rw [hshape]
  intro c hc
  simp only [List.drop, List.mem_cons, List.not_mem_nil, or_false] at hc
  rcases hc with rfl | rfl | rfl | rfl | rfl | rfl
  · exact mx1
  · exact mx2
  · exact my1
  · exact my2
  · exact mz1
  · exact mz2

/-- Witness for `C9_hex_extra_chars` at `#ABCDEFxy`. -/
theorem C9_witness :
    invert_color (String.mk ('#' :: 'A' :: 'B' :: 'C' :: 'D' :: 'E' :: 'F' :: ['x', 'y']))
      = some (rgb_to_hex (255 - ((16 * 10 + 11 : Nat) : Int),
          255 - ((16 * 12 + 13 : Nat) : Int), 255 - ((16 * 14 + 15 : Nat) : Int)))
    ∧ invert_color (String.mk ('#' :: 'A' :: 'B' :: 'C' :: 'D' :: 'E' :: 'F' :: ['x', 'y']))
      = invert_color (String.mk ['#', 'A', 'B', 'C', 'D', 'E', 'F'])
    ∧ (rgb_to_hex (255 - ((16 * 10 + 11 : Nat) : Int), 255 - ((16 * 12 + 13 : Nat) : Int),
        255 - ((16 * 14 + 15 : Nat) : Int))).data.length = 7
    ∧ ∀ c ∈ (rgb_to_hex (255 - ((16 * 10 + 11 : Nat) : Int),
        255 - ((16 * 12 + 13 : Nat) : Int), 255 - ((16 * 14 + 15 : Nat) : Int))).data.drop 1,
        c ∈ "0123456789abcdef".data :=
  C9_hex_extra_chars 'A' 'B' 'C' 'D' 'E' 'F' 10 11 12 13 14 15 ['x', 'y']
    (by decide) (by decide) (by decide) (by decide) (by decide) (by decide)

/-- The fill pass succeeds whenever `invert_color` succeeds on every
captured value. -/
theorem subFillAux_isSome (fuel : Nat) (l : List Char)
    (h : ∀ v ∈ fillValuesAux fuel l, (invertCore v).isSome = true) :
    (subFillAux fuel l).isSome = true := by
  induction fuel generalizing l with
  | zero => cases l <;> simp [subFillAux]
  | succ fuel ih =>
    cases l with
    | nil => simp [subFillAux]
    | cons c cs =>
      by_cases hlw : leadsWith fillLit (c :: cs) = true
      · cases hsp : splitFirst ['"'] ((c :: cs).drop fillLit.length) with
        | none =>
          simp only [subFillAux, fillValuesAux, hlw, hsp, if_true] at h ⊢
          simp only [Option.isSome_map']
          exact ih cs h
        | some vr =>
          by_cases hla : lookaheadDark vr.2 = true
          · simp only [subFillAux, fillValuesAux, hlw, hsp, hla, if_true] at h ⊢
            simp only [Option.isSome_map']
            exact ih cs h
          · have hla' : lookaheadDark vr.2 = false := by simpa using hla
            simp only [subFillAux, fillValuesAux, hlw, hsp, hla', if_true,
              Bool.false_eq_true, if_false] at h ⊢
            have hv := h vr.1 (by simp)
            cases hic : invertCore vr.1 with
            | none => rw [hic] at hv; simp at hv
            | some inv =>
              simp only [hic, Option.isSome_map']
              exact ih vr.2 (fun v hv2 => h v (by simp [hv2]))
      · have hlw' : leadsWith fillLit (c :: cs) = false := by simpa using hlw
        simp only [subFillAux, fillValuesAux, hlw', Bool.false_eq_true, if_false] at h ⊢
        simp only [Option.isSome_map']
        exact ih cs h

/-- Claim C1 (corrected, amended): `add_dark_mode_attributes` returns a
string (raises no exception) for every input on which `invert_color`
succeeds on each fill value captured by the rewrite pass — in particular
for all inputs with no SVG-like structure.  The claim's unconditional
form is wrong: a fill value that starts with `'#'` but is a malformed
hex color makes `int(_, 16)` raise `ValueError` (see the
counterexample). -/
theorem C1_pipeline_total (s : String)
    (h : ∀ v ∈ fillValuesL (strippedContentL s.data), (invertCore v).isSome = true) :
    (add_dark_mode_attributes s).isSome = true := by
  unfold add_dark_mode_attributes addDarkCoreL
  simp only [Option.isSome_map']
  exact subFillAux_isSome _ _ h

/-- Claim C1 counterexample: on `<path fill="#FFF"/>` the pipeline raises
`ValueError` (the third slice of `FFF` is empty), modelled as `none`. -/
theorem C1_cex : add_dark_mode_attributes "<path fill=\"#FFF\"/>" = none := by decide

/-- Witness for `C1_pipeline_total` on a well-formed document. -/
theorem C1_witness :
    (add_dark_mode_attributes "<path fill=\"black\"/>").isSome = true :=
  C1_pipeline_total "<path fill=\"black\"/>" (by decide)

/-- Claim C2 counterexample: the pipeline is not idempotent as strings —
re-application strips `fill-dark="white"` but keeps the space before it,
then the rewrite adds another space, so the second output differs. -/
theorem C2_cex :
    (add_dark_mode_attributes "<path fill=\"black\"/>").bind add_dark_mode_attributes
      ≠ add_dark_mode_attributes "<path fill=\"black\"/>" := by decide

/-- Claim C2 (corrected, amended): on `<path fill="black"/>` the second
application yields the first output with one extra space before `/>` and
the same single `fill-dark` attribute — duplicate attributes do not
accumulate, but whitespace does, so exact string idempotence fails. -/
theorem C2_second_pass :
    add_dark_mode_attributes "<path fill=\"black\"/>"
      = some "<path fill=\"black\" fill-dark=\"white\"/>"
    ∧ add_dark_mode_attributes "<path fill=\"black\" fill-dark=\"white\"/>"
      = some "<path fill=\"black\" fill-dark=\"white\" />"
    ∧ countSub darkLit "<path fill=\"black\" fill-dark=\"white\"/>" = 1
    ∧ countSub darkLit "<path fill=\"black\" fill-dark=\"white\" />" = 1 :=
  ⟨by decide, by decide, by decide, by decide⟩

/-- `leadsWith` is the prefix relation. -/
theorem leadsWith_iff {p l : List Char} : leadsWith p l = true ↔ ∃ t, l = p ++ t := by
  induction p generalizing l with
  | nil => simp [leadsWith]
  | cons a as ih =>
    cases l with
    | nil => simp [leadsWith]
    | cons b bs =>
      simp only [leadsWith, Bool.and_eq_true, decide_eq_true_eq, ih]
      constructor
      · rintro ⟨rfl, t, rfl⟩
        exact ⟨t, rfl⟩
      · rintro ⟨t, ht⟩
        injection ht with h1 h2
        exact ⟨h1.symm, t, h2⟩

/-- A list is a prefix of itself followed by anything. -/
theorem leadsWith_append_self (p t : List Char) : leadsWith p (p ++ t) = true :=
  leadsWith_iff.mpr ⟨t, rfl⟩

/-- Prefix test after removing a common prefix. -/
theorem leadsWith_append_same (t p l : List Char) :
    leadsWith (t ++ p) (t ++ l) = leadsWith p l := by
  induction t with
  | nil => rfl
  | cons c cs ih => simp [leadsWith, ih]

/-- `containsSub` is the substring relation. -/
theorem containsSub_iff {pat l : List Char} :
    containsSub pat l = true ↔ ∃ x y, l = x ++ pat ++ y := by
  induction l with
  | nil =>
    simp only [containsSub, leadsWith_iff]
    constructor
    · rintro ⟨t, ht⟩
      exact ⟨[], t, ht⟩
    · rintro ⟨x, y, h⟩
      cases x with
      | nil => exact ⟨y, h⟩
      | cons a as => cases h
  | cons c cs ih =>
    simp only [containsSub, Bool.or_eq_true, leadsWith_iff, ih]
    constructor
    · rintro (⟨t, ht⟩ | ⟨x, y, h⟩)
      · exact ⟨[], t, ht⟩
      · exact ⟨c :: x, y, by simp [h]⟩
    · rintro ⟨x, y, h⟩
      cases x with
      | nil => exact Or.inl ⟨y, h⟩
      | cons a as =>
        injection h with h1 h2
        exact Or.inr ⟨as, y, h2⟩

/-- An occurrence persists when extending on the right. -/
theorem containsSub_append_left {pat x : List Char} (y : List Char)
    (h : containsSub pat x = true) : containsSub pat (x ++ y) = true := by
  obtain ⟨u, v, rfl⟩ := containsSub_iff.mp h
  exact containsSub_iff.mpr ⟨u, v ++ y, by simp⟩

/-- An occurrence persists when extending on the left. -/
theorem containsSub_append_right {pat y : List Char} (x : List Char)
    (h : containsSub pat y = true) : containsSub pat (x ++ y) = true := by
  obtain ⟨u, v, rfl⟩ := containsSub_iff.mp h
  exact containsSub_iff.mpr ⟨x ++ u, v, by simp⟩

/-- An occurrence of a pattern gives one of any prefix of the pattern. -/
theorem containsSub_of_leadsWith {p q l : List Char} (hpq : leadsWith p q = true)
    (h : containsSub q l = true) : containsSub p l = true := by
  obtain ⟨t, rfl⟩ := leadsWith_iff.mp hpq
  obtain ⟨x, y, rfl⟩ := containsSub_iff.mp h
  exact containsSub_iff.mpr ⟨x, t ++ y, by simp⟩

/-- A successful `splitFirst` decomposes its input around the pattern. -/
theorem splitFirst_eq_some {pat l a b : List Char}
    (h : splitFirst pat l = some (a, b)) : l = a ++ pat ++ b := by
  induction l generalizing a with
  | nil =>
    unfold splitFirst at h
    by_cases hp : pat = []
    · rw [if_pos hp] at h
      injection h with h2
      injection h2 with h3 h4
      subst hp; subst h3; subst h4
      rfl
    · rw [if_neg hp] at h
      cases h
  | cons c cs ih =>
    unfold splitFirst at h
    by_cases hl : leadsWith pat (c :: cs) = true
    · rw [if_pos hl] at h
      injection h with h2
      injection h2 with h3 h4
      obtain ⟨t, ht⟩ := leadsWith_iff.mp hl
      subst h3
      rw [ht, List.drop_left] at h4
      rw [List.nil_append, ht, h4]
    · rw [if_neg hl] at h
      cases hs : splitFirst pat cs with
      | none => rw [hs] at h; cases h
      | some ab =>
        rw [hs] at h
        cases ab with
        | mk a' b' =>
          simp only [Option.map_some'] at h
          injection h with h2
          injection h2 with h3 h4
          subst h4
          have hcs := ih hs
          subst h3
          simp [hcs]

/-- `splitFirst` steps over a position where the pattern does not start. -/
theorem splitFirst_cons_neg {pat : List Char} {c : Char} {cs : List Char}
    (hl : ¬ leadsWith pat (c :: cs) = true) :
    splitFirst pat (c :: cs) = Option.map (fun ab => (c :: ab.1, ab.2)) (splitFirst pat cs) := by
  simp only [splitFirst]
  rw [if_neg hl]

/-- `splitFirst` fails exactly on pattern-free inputs. -/
theorem splitFirst_none_iff {pat l : List Char} (hp : pat ≠ []) :
    splitFirst pat l = none ↔ containsSub pat l = false := by
  induction l with
  | nil =>
    unfold splitFirst containsSub
    rw [if_neg hp]
    simp only [true_iff]
    cases pat with
    | nil => exact absurd rfl hp
    | cons a as => simp [leadsWith]
  | cons c cs ih =>
    by_cases hl : leadsWith pat (c :: cs) = true
    · simp [splitFirst, containsSub, hl]
    · have hl' : leadsWith pat (c :: cs) = false := by simpa using hl
      rw [splitFirst_cons_neg hl]
      simp only [containsSub, hl', Bool.false_or]
      cases hs : splitFirst pat cs with
      | none => simp [ih.mp hs]
      | some ab =>
        simp only [Option.map_some', reduceCtorEq, false_iff]
        intro hcf
        rw [ih.mpr hcf] at hs
        cases hs

/-- `splitFirst` returns the leftmost occurrence. -/
theorem splitFirst_min {pat l a b : List Char} (h : splitFirst pat l = some (a, b)) :
    ∀ a' b', l = a' ++ pat ++ b' → a.length ≤ a'.length := by
  induction l generalizing a with
  | nil =>
    intro a' b' he
    unfold splitFirst at h
    by_cases hp : pat = []
    · rw [if_pos hp] at h
      injection h with h2
      injection h2 with h3 _
      subst h3
      simp
    · rw [if_neg hp] at h
      cases h
  | cons c cs ih =>
    intro a' b' he
    by_cases hl : leadsWith pat (c :: cs) = true
    · unfold splitFirst at h
      rw [if_pos hl] at h
      injection h with h2
      injection h2 with h3 _
      subst h3
      simp
    · rw [splitFirst_cons_neg hl] at h
      cases hs : splitFirst pat cs with
      | none => rw [hs] at h; cases h
      | some ab =>
        rw [hs] at h
        cases ab with
        | mk a0 b0 =>
          simp only [Option.map_some'] at h
          injection h with h2
          injection h2 with h3 h4
          subst h4
          cases a' with
          | nil =>
            exfalso
            rw [List.nil_append] at he
            exact hl (by rw [he]; exact leadsWith_append_self pat b')
          | cons d ds =>
            injection he with he1 he2
            have := ih hs ds b' he2
            subst h3
            simp only [List.length_cons]
            omega

/-- The text before the first occurrence holds no occurrence itself. -/
theorem splitFirst_fst_clean {pat l a b : List Char} (hp : pat ≠ [])
    (h : splitFirst pat l = some (a, b)) : containsSub pat a = false := by
  by_cases hc : containsSub pat a = true
  · obtain ⟨u, v, huv⟩ := containsSub_iff.mp hc
    have he := splitFirst_eq_some h
    have hmin := splitFirst_min h u (v ++ pat ++ b)
      (by rw [he, huv]; simp)
    have : pat.length ≠ 0 := by
      intro h0
      exact hp (List.eq_nil_of_length_eq_zero h0)
    have : a.length = u.length + pat.length + v.length := by
      rw [huv]; simp; omega
    omega
  · simpa using hc

/-- An occurrence in a concatenation lies in one part or crosses the
boundary, splitting the pattern into a suffix of the left part and a
prefix of the right part. -/
theorem containsSub_append_cases {pat x y : List Char}
    (h : containsSub pat (x ++ y) = true) :
    containsSub pat x = true ∨ containsSub pat y = true
      ∨ ∃ p q, pat = p ++ q ∧ p ≠ [] ∧ q ≠ []
          ∧ (∃ x0, x = x0 ++ p) ∧ (∃ y1, y = q ++ y1) := by
  obtain ⟨u, v, huv⟩ := containsSub_iff.mp h
  rw [List.append_assoc] at huv
  rcases List.append_eq_append_iff.mp huv with ⟨a', -, hy⟩ | ⟨c', hx, hd⟩
  · exact Or.inr (Or.inl (containsSub_iff.mpr ⟨a', v, by rw [hy, List.append_assoc]⟩))
  · rcases List.append_eq_append_iff.mp hd.symm with ⟨a', hpat, hyy⟩ | ⟨c2, hc, -⟩
    · cases hc' : c' with
      | nil =>
        subst hc'
        rw [List.nil_append] at hpat
        exact Or.inr (Or.inl (containsSub_iff.mpr ⟨[], v, by rw [hyy, hpat]; simp⟩))
      | cons d ds =>
        cases hq' : a' with
        | nil =>
          subst hq'
          rw [List.append_nil] at hpat
          exact Or.inl (containsSub_iff.mpr ⟨u, [], by rw [hx, hpat]; simp⟩)
        | cons e es =>
          exact Or.inr (Or.inr ⟨c', a', hpat, by rw [hc']; simp, by rw [hq']; simp,
            ⟨u, hx⟩, ⟨v, hyy⟩⟩)
    · exact Or.inl (containsSub_iff.mpr ⟨u, c2, by rw [hx, hc, List.append_assoc]⟩)

/-- A short left part of a prefix match is an initial segment of the
pattern. -/
theorem leadsWith_take {p t y : List Char} (h : leadsWith p (t ++ y) = true)
    (hlen : t.length ≤ p.length) : t = p.take t.length := by
  obtain ⟨u, hu⟩ := leadsWith_iff.mp h
  have h1 : t = (t ++ y).take t.length := by simp
  rw [hu, List.take_append_eq_append_take] at h1
  have h2 : t.length - p.length = 0 := by omega
  simpa [h2] using h1

/-- A prefix match within the first part alone, when it is long enough. -/
theorem leadsWith_of_ge {p t y : List Char} (h : leadsWith p (t ++ y) = true)
    (hlen : p.length ≤ t.length) : leadsWith p t = true := by
  obtain ⟨u, hu⟩ := leadsWith_iff.mp h
  apply leadsWith_iff.mpr
  refine ⟨t.drop p.length, ?_⟩
  have h1 : p = (t ++ y).take p.length := by rw [hu]; simp
  rw [List.take_append_eq_append_take] at h1
  have h2 : p.length - t.length = 0 := by omega
  rw [h2] at h1
  simp only [List.take_zero, List.append_nil] at h1
  conv_lhs => rw [← List.take_append_drop p.length t]
  rw [← h1]

/-- `splitFirst` skips a leading region in which the pattern starts
nowhere. -/
theorem splitFirst_prepend {pat x y : List Char}
    (hno : ∀ s t, x = s ++ t → t ≠ [] → leadsWith pat (t ++ y) = false) :
    splitFirst pat (x ++ y) = (splitFirst pat y).map (fun ab => (x ++ ab.1, ab.2)) := by
  induction x with
  | nil =>
    simp only [List.nil_append]
    cases hs : splitFirst pat y with
    | none => rfl
    | some ab => simp
  | cons c cs ih =>
    have hl : ¬ leadsWith pat ((c :: cs) ++ y) = true := by
      rw [hno [] (c :: cs) rfl (by simp)]
      simp
    rw [List.cons_append] at hl
    rw [List.cons_append, splitFirst_cons_neg hl,
      ih (fun s t hst htne => hno (c :: s) t (by rw [hst]; rfl) htne)]
    cases splitFirst pat y with
    | none => rfl
    | some ab => simp

/-- `splitFirst` fires immediately on a leading occurrence. -/
theorem splitFirst_self_append {pat : List Char} (z : List Char) (hp : pat ≠ []) :
    splitFirst pat (pat ++ z) = some ([], z) := by
  cases pat with
  | nil => exact absurd rfl hp
  | cons c cs =>
    have hl : leadsWith (c :: cs) (c :: (cs ++ z)) = true := by
      rw [← List.cons_append]
      exact leadsWith_append_self _ _
    rw [List.cons_append]
    simp only [splitFirst]
    rw [if_pos hl]
    rw [show (c :: (cs ++ z)).drop (c :: cs).length = z from by
      rw [← List.cons_append, List.drop_left]]

/-- A pattern starting at a known position yields an occurrence. -/
theorem containsSub_of_append_head {pat s t : List Char} (x : List Char)
    (hx : x = s ++ t) (hl : leadsWith pat t = true) : containsSub pat x = true := by
  obtain ⟨r, hr⟩ := leadsWith_iff.mp hl
  exact containsSub_iff.mpr ⟨s, r, by rw [hx, hr]; simp⟩

/-- No pattern occurrence can start inside `x` when `x` is free of the
pattern, ends in `'>'`, and no proper pattern prefix ends in `'>'`. -/
theorem hno_of_clean_gtLast {pat x y : List Char}
    (hx : containsSub pat x = false)
    (hlast : x.getLast? = some '>')
    (hpre : ∀ k, k < pat.length → 0 < k → (pat.take k).getLast? ≠ some '>') :
    ∀ s t, x = s ++ t → t ≠ [] → leadsWith pat (t ++ y) = false := by
  intro s t hst htne
  by_contra hcon
  have hlw : leadsWith pat (t ++ y) = true := by simpa using hcon
  by_cases hlen : pat.length ≤ t.length
  · have := containsSub_of_append_head x hst (leadsWith_of_ge hlw hlen)
    rw [hx] at this
    cases this
  · have htk : t = pat.take t.length := leadsWith_take hlw (by omega)
    have h0 : 0 < t.length := List.length_pos.mpr htne
    have hgl : x.getLast? = t.getLast? := by
      rw [hst]
      exact List.getLast?_append_of_ne_nil s htne
    rw [hlast, htk] at hgl
    exact hpre t.length (by omega) h0 hgl.symm

/-- No pattern occurrence can start inside `x` before a literal copy of
the pattern when `x` is free of the pattern and the pattern has no
nontrivial border. -/
theorem hno_of_clean_borderless {pat x : List Char} (y : List Char)
    (hx : containsSub pat x = false)
    (hbord : ∀ k, k < pat.length → 0 < k → pat.drop k ≠ pat.take (pat.length - k)) :
    ∀ s t, x = s ++ t → t ≠ [] → leadsWith pat (t ++ (pat ++ y)) = false := by
  intro s t hst htne
  by_contra hcon
  have hlw : leadsWith pat (t ++ (pat ++ y)) = true := by simpa using hcon
  by_cases hlen : pat.length ≤ t.length
  · have := containsSub_of_append_head x hst (leadsWith_of_ge hlw hlen)
    rw [hx] at this
    cases this
  · have htk : t = pat.take t.length := leadsWith_take hlw (by omega)
    have h0 : 0 < t.length := List.length_pos.mpr htne
    have hsplit : pat = t ++ pat.drop t.length := by
      conv_lhs => rw [← List.take_append_drop t.length pat]
      rw [← htk]
    have hlw2 : leadsWith (t ++ pat.drop t.length) (t ++ (pat ++ y)) = true := by
      rw [← hsplit]; exact hlw
    rw [leadsWith_append_same] at hlw2
    obtain ⟨u, hu⟩ := leadsWith_iff.mp hlw2
    have hlend : (pat.drop t.length).length = pat.length - t.length := by
      simp
    have h1 : pat.take (pat.drop t.length).length = pat.drop t.length := by
      have h2 : (pat ++ y).take (pat.drop t.length).length
          = (pat.drop t.length ++ u).take (pat.drop t.length).length := by rw [hu]
      rw [List.take_left, List.take_append_eq_append_take] at h2
      have h3 : (pat.drop t.length).length - pat.length = 0 := by
        simp
      rw [h3] at h2
      simpa using h2
    rw [hlend] at h1
    exact hbord t.length (by omega) h0 h1.symm

/-- The style scan is the identity without an opening marker. -/
theorem styleScanAux_nomatch {l : List Char} (fuel : Nat)
    (h : splitFirst sOpen l = none) : styleScanAux fuel l = ([], l) := by
  cases fuel with
  | zero => rfl
  | succ n => simp only [styleScanAux, h]

/-- A captured style text never contains the close marker (the match is
non-greedy). -/
theorem styleScanAux_caps_clean (fuel : Nat) (l : List Char) :
    ∀ t ∈ (styleScanAux fuel l).1, containsSub sClose t = false := by
  induction fuel generalizing l with
  | zero => intro t ht; simp [styleScanAux] at ht
  | succ n ih =>
    intro t ht
    cases h1 : splitFirst sOpen l with
    | none =>
      rw [styleScanAux_nomatch (n + 1) h1] at ht
      simp at ht
    | some po =>
      obtain ⟨pre, aft⟩ := po
      cases h2 : splitFirst sClose aft with
      | none =>
        have hval : styleScanAux (n + 1) l = ([], l) := by
          simp only [styleScanAux, h1, h2]
        rw [hval] at ht
        simp at ht
      | some ir =>
        obtain ⟨inner, rest⟩ := ir
        have hval : styleScanAux (n + 1) l
            = (inner :: (styleScanAux n rest).1, pre ++ (styleScanAux n rest).2) := by
          simp only [styleScanAux, h1, h2]
        rw [hval] at ht
        simp only [List.mem_cons] at ht
        rcases ht with rfl | ht
        · exact splitFirst_fst_clean (by decide) h2
        · exact ih rest t ht

/-- No proper prefix of `<style>` ends in `'>'`. -/
theorem sOpen_take_props :
    ∀ k, k < sOpen.length → 0 < k → (sOpen.take k).getLast? ≠ some '>' := by decide

/-- No proper prefix of `</style>` ends in `'>'`. -/
theorem sClose_take_props :
    ∀ k, k < sClose.length → 0 < k → (sClose.take k).getLast? ≠ some '>' := by decide

/-- `</style>` has no nontrivial border. -/
theorem sClose_borderless :
    ∀ k, k < sClose.length → 0 < k → sClose.drop k ≠ sClose.take (sClose.length - k) := by
  decide

/-- The style scan of `X ++ <style> ++ j ++ </style> ++ post` captures
exactly `j` when `X` and `post` hold no open marker, `j` no close
marker, and `X` is empty or ends in `'>'`. -/
theorem styleFindall_single_block (X j post : List Char)
    (hXo : containsSub sOpen X = false)
    (hXl : X = [] ∨ X.getLast? = some '>')
    (hjc : containsSub sClose j = false)
    (hpo : containsSub sOpen post = false) :
    styleScanL (X ++ (sOpen ++ (j ++ (sClose ++ post)))) = ([j], X ++ post) := by
  set l := X ++ (sOpen ++ (j ++ (sClose ++ post))) with hl
  have hne : l ≠ [] := by simp [hl, sOpen]
  obtain ⟨n, hn⟩ : ∃ n, l.length = n + 1 :=
    ⟨l.length - 1, by have := List.length_pos.mpr hne; omega⟩
  have hs1 : splitFirst sOpen l = some (X, j ++ (sClose ++ post)) := by
    have hno : ∀ s t, X = s ++ t → t ≠ [] →
        leadsWith sOpen (t ++ (sOpen ++ (j ++ (sClose ++ post)))) = false := by
      rcases hXl with rfl | hXl
      · intro s t hst htne
        exact absurd (List.append_eq_nil.mp hst.symm).2 htne
      · exact hno_of_clean_gtLast hXo hXl sOpen_take_props
    rw [hl, splitFirst_prepend hno, splitFirst_self_append _ (by decide)]
    simp
  have hs2 : splitFirst sClose (j ++ (sClose ++ post)) = some (j, post) := by
    have hno : ∀ s t, j = s ++ t → t ≠ [] →
        leadsWith sClose (t ++ (sClose ++ post)) = false :=
      hno_of_clean_borderless post hjc sClose_borderless
    rw [splitFirst_prepend hno, splitFirst_self_append _ (by decide)]
    simp
  have hs3 : splitFirst sOpen post = none := (splitFirst_none_iff (by decide)).mpr hpo
  show styleScanAux l.length l = ([j], X ++ post)
  rw [hn]
  simp only [styleScanAux, hs1, hs2, styleScanAux_nomatch n hs3]

/-- A nonempty pattern does not occur in the empty list. -/
theorem containsSub_nil_of_ne {pat : List Char} (hp : pat ≠ []) :
    containsSub pat [] = false := by
  cases pat with
  | nil => exact absurd rfl hp
  | cons a as => simp [containsSub, leadsWith]

/-- A space-free pattern absent from every piece is absent from their
space-join. -/
theorem containsSub_joinSpace {pat : List Char} {qs : List (List Char)}
    (hsp : ' ' ∉ pat) (hpne : pat ≠ [])
    (h : ∀ q ∈ qs, containsSub pat q = false) :
    containsSub pat (joinSpace qs) = false := by
  induction qs with
  | nil => exact containsSub_nil_of_ne hpne
  | cons q rest ih =>
    cases rest with
    | nil => exact h q (by simp)
    | cons r rs =>
      by_contra hcon
      have hc : containsSub pat (q ++ ' ' :: joinSpace (r :: rs)) = true := by
        have he : joinSpace (q :: r :: rs) = q ++ ' ' :: joinSpace (r :: rs) := rfl
        rw [← he]
        simpa using hcon
      rcases containsSub_append_cases hc with hq | hy | ⟨p, qq, hpq, hpn, hqn, -, ⟨y1, hy1⟩⟩
      · rw [h q (by simp)] at hq
        cases hq
      · have hxx : containsSub pat (' ' :: joinSpace (r :: rs))
            = (leadsWith pat (' ' :: joinSpace (r :: rs))
               || containsSub pat (joinSpace (r :: rs))) := rfl
        rw [hxx, Bool.or_eq_true] at hy
        rcases hy with hy | hy
        · obtain ⟨t, ht⟩ := leadsWith_iff.mp hy
          cases pat with
          | nil => exact hpne rfl
          | cons p0 ps =>
            injection ht with ht1 _
            exact hsp (by rw [← ht1]; simp)
        · rw [ih (fun p hp => h p (by simp [hp]))] at hy
          cases hy
      · cases qq with
        | nil => exact hqn rfl
        | cons e es =>
          injection hy1 with hy2 _
          exact hsp (by rw [hpq, ← hy2]; simp)

/-- Lowercasing distributes over the space-join. -/
theorem map_lowerChar_joinSpace (ps : List (List Char)) :
    (joinSpace ps).map lowerChar = joinSpace (ps.map (List.map lowerChar)) := by
  induction ps with
  | nil => rfl
  | cons q rest ih =>
    cases rest with
    | nil => rfl
    | cons r rs =>
      show (q ++ ' ' :: joinSpace (r :: rs)).map lowerChar = _
      rw [List.map_append, List.map_cons,
        show lowerChar ' ' = ' ' from by decide, ih]
      rfl

/-- The space-join of keyword-free texts is keyword-free. -/
theorem hasStyleKeyword_joinSpace {ps : List (List Char)}
    (h : ∀ p ∈ ps, hasStyleKeyword p = false) :
    hasStyleKeyword (joinSpace ps) = false := by
  unfold hasStyleKeyword at h ⊢
  rw [map_lowerChar_joinSpace]
  have h1 : ∀ q ∈ ps.map (List.map lowerChar), containsSub "@media".data q = false := by
    intro q hq
    obtain ⟨p, hp, rfl⟩ := List.mem_map.mp hq
    have hh := h p hp
    simp only [Bool.or_eq_false_iff] at hh
    exact hh.1.1
  have h2 : ∀ q ∈ ps.map (List.map lowerChar), containsSub "fill:".data q = false := by
    intro q hq
    obtain ⟨p, hp, rfl⟩ := List.mem_map.mp hq
    have hh := h p hp
    simp only [Bool.or_eq_false_iff] at hh
    exact hh.1.2
  have h3 : ∀ q ∈ ps.map (List.map lowerChar), containsSub "dark".data q = false := by
    intro q hq
    obtain ⟨p, hp, rfl⟩ := List.mem_map.mp hq
    have hh := h p hp
    simp only [Bool.or_eq_false_iff] at hh
    exact hh.2
  simp only [Bool.or_eq_false_iff]
  exact ⟨⟨containsSub_joinSpace (by decide) (by decide) h1,
    containsSub_joinSpace (by decide) (by decide) h2⟩,
    containsSub_joinSpace (by decide) (by decide) h3⟩

/-- Claim C5 (corrected, amended): provided the document left after style
removal and fill rewriting contains no literal `<style>` substring, the
output holds at most one style element — none when no block was
preserved, otherwise exactly one whose content is the space-join of the
preserved texts — and every style content in the output is free of the
disqualifying keywords, hence never equals a disqualified original
block.  Unrestricted, the claim is false: removal can reassemble
leftover fragments into new style elements (see the counterexample). -/
theorem C5_style_invariant (s : String) (mid : List Char)
    (hmid : subFillL (strippedContentL s.data) = some mid)
    (h1 : containsSub sOpen mid = false) :
    ∃ out, add_dark_mode_attributes s = some out
      ∧ styleContents out = (if preservedStylesL s.data = [] then []
          else [String.mk (joinSpace (preservedStylesL s.data))])
      ∧ (styleContents out).length ≤ 1
      ∧ ∀ t ∈ styleContents out, hasStyleKeyword t.data = false := by
  have hout : add_dark_mode_attributes s
      = some (String.mk (reinsertL (preservedStylesL s.data) mid)) := by
    unfold add_dark_mode_attributes addDarkCoreL
    rw [show subFillL (strippedContentL s.data) = some mid from hmid]
    rfl
  have hkw : ∀ p ∈ preservedStylesL s.data, hasStyleKeyword p = false := by
    intro p hp
    have := (List.mem_filter.mp hp).2
    simpa using this
  have hclean : ∀ p ∈ preservedStylesL s.data, containsSub sClose p = false := by
    intro p hp
    have hmem : p ∈ styleFindallL s.data := (List.mem_filter.mp hp).1
    exact styleScanAux_caps_clean _ _ p hmem
  have hfind : styleFindallL (reinsertL (preservedStylesL s.data) mid)
      = (if preservedStylesL s.data = [] then []
         else [joinSpace (preservedStylesL s.data)]) := by
    cases hpres : preservedStylesL s.data with
    | nil =>
      rw [if_pos rfl]
      show (styleScanL mid).1 = []
      show (styleScanAux mid.length mid).1 = []
      rw [styleScanAux_nomatch _ ((splitFirst_none_iff (by decide)).mpr h1)]
    | cons p ps =>
      rw [if_neg (by simp)]
      have hjc : containsSub sClose (joinSpace (p :: ps)) = false := by
        rw [← hpres]
        exact containsSub_joinSpace (by decide) (by decide) (by rw [hpres] at hclean ⊢; exact hclean)
      cases hsp : splitFirst ['>'] mid with
      | some pq =>
        obtain ⟨pre, post⟩ := pq
        have hmideq : mid = (pre ++ ['>']) ++ post := splitFirst_eq_some hsp
        have hXo : containsSub sOpen (pre ++ ['>']) = false := by
          by_cases hcx : containsSub sOpen (pre ++ ['>']) = true
          · rw [hmideq, containsSub_append_left post hcx] at h1
            cases h1
          · simpa using hcx
        have hpo : containsSub sOpen post = false := by
          by_cases hcx : containsSub sOpen post = true
          · rw [hmideq, containsSub_append_right (pre ++ ['>']) hcx] at h1
            cases h1
          · simpa using hcx
        have hb := styleFindall_single_block (pre ++ ['>']) (joinSpace (p :: ps)) post
          hXo (Or.inr (List.getLast?_concat pre)) hjc hpo
        have hre : reinsertL (p :: ps) mid
            = (pre ++ ['>']) ++ (sOpen ++ (joinSpace (p :: ps) ++ (sClose ++ post))) := by
          simp only [reinsertL, hsp]
          simp
        rw [hre]
        show (styleScanL _).1 = _
        rw [hb]
      | none =>
        have hb := styleFindall_single_block [] (joinSpace (p :: ps)) mid
          (containsSub_nil_of_ne (by decide)) (Or.inl rfl) hjc h1
        have hre : reinsertL (p :: ps) mid
            = [] ++ (sOpen ++ (joinSpace (p :: ps) ++ (sClose ++ mid))) := by
          simp only [reinsertL, hsp]
          simp
        rw [hre]
        show (styleScanL _).1 = _
        rw [hb]
  refine ⟨String.mk (reinsertL (preservedStylesL s.data) mid), hout, ?_, ?_, ?_⟩
  · show (styleFindallL (reinsertL (preservedStylesL s.data) mid)).map String.mk = _
    rw [hfind]
    cases hpres : preservedStylesL s.data with
    | nil => simp
    | cons p ps => simp
  · show ((styleFindallL (reinsertL (preservedStylesL s.data) mid)).map String.mk).length ≤ 1
    rw [hfind]
    cases preservedStylesL s.data with
    | nil => simp
    | cons p ps => simp
  · intro t ht
    have ht2 : t ∈ (styleFindallL (reinsertL (preservedStylesL s.data) mid)).map String.mk := ht
    rw [hfind] at ht2
    cases hpres : preservedStylesL s.data with
    | nil =>
      rw [hpres] at ht2
      simp at ht2
    | cons p ps =>
      rw [hpres] at ht2
      rw [if_neg (by simp)] at ht2
      simp only [List.map_cons, List.map_nil, List.mem_cons, List.not_mem_nil, or_false] at ht2
      subst ht2
      show hasStyleKeyword (joinSpace (p :: ps)) = false
      rw [← hpres]
      exact hasStyleKeyword_joinSpace hkw

/-- Claim C5 counterexample: on this input the removal pass glues `<sty`
and `le>@media</style>` into a new style block, so the output contains
two style elements, the second being exactly the disqualified original
block content `@media`. -/
theorem C5_cex :
    add_dark_mode_attributes "a><style>ok</style><sty<style>@media</style>le>@media</style>"
      = some "a><style>ok</style><style>@media</style>"
    ∧ styleContents "a><style>ok</style><style>@media</style>" = ["ok", "@media"]
    ∧ hasStyleKeyword "@media".data = true :=
  ⟨by decide, by decide, by decide⟩

/-- Witness for `C5_style_invariant` on a well-formed document. -/
theorem C5_witness :
    ∃ out, add_dark_mode_attributes "<svg><style>ok</style><path d=\"z\"/></svg>" = some out
      ∧ styleContents out
          = (if preservedStylesL "<svg><style>ok</style><path d=\"z\"/></svg>".data = [] then []
             else [String.mk (joinSpace
               (preservedStylesL "<svg><style>ok</style><path d=\"z\"/></svg>".data))])
      ∧ (styleContents out).length ≤ 1
      ∧ ∀ t ∈ styleContents out, hasStyleKeyword t.data = false :=
  C5_style_invariant "<svg><style>ok</style><path d=\"z\"/></svg>"
    "<svg><path d=\"z\"/></svg>".data (by decide) (by decide)

/-- Length bookkeeping of a `splitFirst` decomposition. -/
theorem splitFirst_parts_length {pat l a b : List Char}
    (h : splitFirst pat l = some (a, b)) :
    a.length + pat.length + b.length = l.length := by
  have := splitFirst_eq_some h
  rw [this]
  simp
  omega

/-- The fill pass does not depend on the fuel, once sufficient. -/
theorem subFillAux_irrel (fuel1 : Nat) :
    ∀ fuel2 l, l.length ≤ fuel1 → l.length ≤ fuel2 →
      subFillAux fuel1 l = subFillAux fuel2 l := by
  induction fuel1 with
  | zero =>
    intro fuel2 l h1 h2
    have : l = [] := List.eq_nil_of_length_eq_zero (by omega)
    subst this
    cases fuel2 <;> rfl
  | succ n ih =>
    intro fuel2 l h1 h2
    cases l with
    | nil => cases fuel2 <;> rfl
    | cons c cs =>
      obtain ⟨m, rfl⟩ : ∃ m, fuel2 = m + 1 :=
        ⟨fuel2 - 1, by simp at h2; omega⟩
      simp only [subFillAux]
      have hlcs : cs.length ≤ n := by simp at h1; omega
      have hlcs2 : cs.length ≤ m := by simp at h2; omega
      cases hlw : leadsWith fillLit (c :: cs) with
      | false => simp [ih m cs hlcs hlcs2]
      | true =>
        simp only [if_true]
        cases hsp : splitFirst ['"'] ((c :: cs).drop fillLit.length) with
        | none => simp [ih m cs hlcs hlcs2]
        | some vr =>
          have hlen := splitFirst_parts_length hsp
          have hdl : ((c :: cs).drop fillLit.length).length = cs.length + 1 - fillLit.length := by
            simp
          have hvr : vr.2.length ≤ n ∧ vr.2.length ≤ m := by
            rw [hdl] at hlen
            have : fillLit.length = 6 := rfl
            omega
          cases hla : lookaheadDark vr.2 with
          | true => simp [hla, ih m cs hlcs hlcs2]
          | false =>
            simp only [hla, Bool.false_eq_true, if_false]
            cases hic : invertCore vr.1 with
            | none => simp [hic]
            | some inv => simp [hic, ih m vr.2 hvr.1 hvr.2]

/-- The closing-quote search after `fill="` captures the quote-free
value. -/
theorem splitFirst_quote {v b : List Char} (hv : '"' ∉ v) :
    splitFirst ['"'] (v ++ '"' :: b) = some (v, b) := by
  have hno : ∀ s t, v = s ++ t → t ≠ [] → leadsWith ['"'] (t ++ '"' :: b) = false := by
    intro s t hst htne
    cases t with
    | nil => exact absurd rfl htne
    | cons c cc =>
      have hc : c ≠ '"' := by
        intro hh
        exact hv (by rw [hst, hh]; simp)
      simp [leadsWith, eq_comm, hc]
  rw [splitFirst_prepend hno, show ('"' :: b : List Char) = ['"'] ++ b from rfl,
    splitFirst_self_append _ (by decide)]
  simp

/-- The fill pass copies a leading region in which its pattern starts
nowhere. -/
theorem subFillAux_walk (a : List Char) :
    ∀ fuel r, (∀ s t, a = s ++ t → t ≠ [] → leadsWith fillLit (t ++ r) = false) →
      (a ++ r).length ≤ fuel →
      subFillAux fuel (a ++ r) = (subFillAux (fuel - a.length) r).map (fun t => a ++ t) := by
  induction a with
  | nil =>
    intro fuel r hno hlen
    simp only [List.nil_append, List.length_nil, Nat.sub_zero]
    cases subFillAux fuel r <;> simp
  | cons c a' ih =>
    intro fuel r hno hlen
    obtain ⟨m, rfl⟩ : ∃ m, fuel = m + 1 := ⟨fuel - 1, by simp at hlen; omega⟩
    have hhead : leadsWith fillLit ((c :: a') ++ r) = false := hno [] (c :: a') rfl (by simp)
    rw [List.cons_append] at hhead ⊢
    have hstep : subFillAux (m + 1) (c :: (a' ++ r))
        = (subFillAux m (a' ++ r)).map (fun t => c :: t) := by
      simp only [subFillAux, hhead, Bool.false_eq_true, if_false]
    rw [hstep, ih m r (fun s t hst htne => hno (c :: s) t (by rw [hst]; rfl) htne)
      (by simp at hlen ⊢; omega)]
    have harith : m - a'.length = m + 1 - (c :: a').length := by
      simp
    rw [harith]
    cases subFillAux (m + 1 - (c :: a').length) r <;> simp

/-- The fill pass at a match: the attribute is replaced by itself plus a
space and the `fill-dark` companion, and scanning resumes after the
original match. -/
theorem subFillAux_head_match {v b : List Char} (fuel : Nat) (hv : '"' ∉ v)
    (hla : lookaheadDark b = false) :
    subFillAux (fuel + 1) (fillLit ++ (v ++ '"' :: b))
      = match invertCore v with
        | none => none
        | some inv =>
          (subFillAux fuel b).map
            (fun t => fillLit ++ v ++ ('"' :: ' ' :: darkAttrLit) ++ inv ++ '"' :: t) := by
  have hsq := splitFirst_quote (b := b) hv
  have e1 : (fillLit ++ (v ++ '"' :: b))
      = 'f' :: ("ill=\"".data ++ (v ++ '"' :: b)) := rfl
  have hlw : leadsWith fillLit ('f' :: ("ill=\"".data ++ (v ++ '"' :: b))) = true := by
    rw [← e1]
    exact leadsWith_append_self _ _
  have hdrop : ('f' :: ("ill=\"".data ++ (v ++ '"' :: b))).drop fillLit.length
      = v ++ '"' :: b := by
    rw [← e1]
    exact List.drop_left _ _
  rw [e1]
  simp only [subFillAux, hlw, if_true, hdrop, hsq, hla, Bool.false_eq_true, if_false]

/-- The fill pass is the identity when every candidate position fails
(no closing quote, or the lookahead finds a companion). -/
theorem subFillAux_skipAll (fuel : Nat) :
    ∀ l, (∀ i vr, leadsWith fillLit (l.drop i) = true →
        splitFirst ['"'] ((l.drop i).drop fillLit.length) = some vr →
        lookaheadDark vr.2 = true) →
      subFillAux fuel l = some l := by
  induction fuel with
  | zero => intro l hall; cases l <;> rfl
  | succ n ih =>
    intro l hall
    cases l with
    | nil => rfl
    | cons c cs =>
      have hall2 : ∀ i vr, leadsWith fillLit (cs.drop i) = true →
          splitFirst ['"'] ((cs.drop i).drop fillLit.length) = some vr →
          lookaheadDark vr.2 = true := by
        intro i vr h1 h2
        refine hall (i + 1) vr ?_ ?_
        · rw [List.drop_succ_cons]
          exact h1
        · rw [List.drop_succ_cons]
          exact h2
      cases hlw : leadsWith fillLit (c :: cs) with
      | false =>
        simp only [subFillAux, hlw, Bool.false_eq_true, if_false, ih cs hall2,
          Option.map_some']
      | true =>
        cases hsp : splitFirst ['"'] ((c :: cs).drop fillLit.length) with
        | none =>
          simp only [subFillAux, hlw, if_true, hsp, ih cs hall2, Option.map_some']
        | some vr =>
          have hla : lookaheadDark vr.2 = true := by
            refine hall 0 vr ?_ ?_
            · rw [List.drop_zero]
              exact hlw
            · rw [List.drop_zero]
              exact hsp
          simp only [subFillAux, hlw, if_true, hsp, hla, ih cs hall2, Option.map_some']

/-- A pattern starting at any position is an occurrence. -/
theorem leadsWith_drop_containsSub {pat l : List Char} {i : Nat}
    (h : leadsWith pat (l.drop i) = true) : containsSub pat l = true := by
  have := containsSub_of_append_head l (List.take_append_drop i l).symm h
  exact this

/-- The fill pass at a position where the pattern matches but the
lookahead finds a companion: the regex does not match here, so the scan
copies one character and continues. -/
theorem subFillAux_head_skip {v b : List Char} (fuel : Nat) (hv : '"' ∉ v)
    (hla : lookaheadDark b = true) :
    subFillAux (fuel + 1) (fillLit ++ (v ++ '"' :: b))
      = (subFillAux fuel ("ill=\"".data ++ (v ++ '"' :: b))).map (fun t => 'f' :: t) := by
  have hsq := splitFirst_quote (b := b) hv
  have e1 : (fillLit ++ (v ++ '"' :: b))
      = 'f' :: ("ill=\"".data ++ (v ++ '"' :: b)) := rfl
  have hlw : leadsWith fillLit ('f' :: ("ill=\"".data ++ (v ++ '"' :: b))) = true := by
    rw [← e1]
    exact leadsWith_append_self _ _
  have hdrop : ('f' :: ("ill=\"".data ++ (v ++ '"' :: b))).drop fillLit.length
      = v ++ '"' :: b := by
    rw [← e1]
    exact List.drop_left _ _
  rw [e1]
  simp only [subFillAux, hlw, if_true, hdrop, hsq, hla]

/-- Claim C6 (confirmed): in the fill pass, the leftmost unprocessed
occurrence of `fill="<value>"` (quote-free value, the pattern starting
nowhere earlier in the text) that is not followed by whitespace and
`fill-dark` is replaced by the original attribute, exactly one space,
and `fill-dark="invert_color(value)"`, with the value preserved
verbatim; an occurrence whose lookahead finds a companion is left
untouched, copied verbatim (provided the pattern starts nowhere inside
the copied span).  In both cases scanning continues with the fill pass
of the remainder `b`, which may hold further occurrences — so the
statement composes over every occurrence of a document. -/
theorem C6_fill_rewrite (a v b : List Char)
    (hv : '"' ∉ v)
    (hna : ∀ i, i < a.length →
      leadsWith fillLit ((a ++ (fillLit ++ (v ++ '"' :: b))).drop i) = false) :
    (lookaheadDark b = false →
      subFillL (a ++ (fillLit ++ (v ++ '"' :: b)))
        = match invertCore v with
          | none => none
          | some inv => (subFillL b).map
              (fun t => a ++ (fillLit ++ v ++ ('"' :: ' ' :: darkAttrLit) ++ inv ++ '"' :: t)))
    ∧ (lookaheadDark b = true →
      (∀ i, i < a.length + 7 + v.length → a.length < i →
        leadsWith fillLit ((a ++ (fillLit ++ (v ++ '"' :: b))).drop i) = false) →
      subFillL (a ++ (fillLit ++ (v ++ '"' :: b)))
        = (subFillL b).map (fun t => a ++ (fillLit ++ (v ++ '"' :: t)))) := by
  set rest := fillLit ++ (v ++ '"' :: b) with hrest
  have hnoa : ∀ s t, a = s ++ t → t ≠ [] → leadsWith fillLit (t ++ rest) = false := by
    intro s t hst htne
    have ht := List.length_pos.mpr htne
    have hi1 : s.length < a.length := by
      rw [hst]
      simp only [List.length_append]
      omega
    have := hna s.length hi1
    rw [hst, List.append_assoc, List.drop_left] at this
    exact this
  have hwalk := subFillAux_walk a (a ++ rest).length rest hnoa (le_refl _)
  have hflen : (a ++ rest).length - a.length = rest.length := by
    simp
  obtain ⟨m, hm⟩ : ∃ m, rest.length = m + 1 := ⟨rest.length - 1, by simp [hrest, fillLit]⟩
  have hmv : m = 6 + v.length + b.length := by
    have : rest.length = 6 + (v.length + (1 + b.length)) := by
      simp [hrest, fillLit]
      omega
    omega
  constructor
  · intro hla
    have hhead := subFillAux_head_match (v := v) (b := b) m hv hla
    show subFillAux (a ++ rest).length (a ++ rest) = _
    rw [hwalk, hflen, hm, hhead]
    cases hic : invertCore v with
    | none => rfl
    | some inv =>
      have hirr : subFillAux m b = subFillAux b.length b :=
        subFillAux_irrel m b.length b (by omega) (le_refl _)
      rw [hirr]
      show (Option.map _ (Option.map _ (subFillL b))) = _
      cases subFillL b <;> simp
  · intro hla hattr
    have hskip := subFillAux_head_skip (v := v) (b := b) m hv hla
    have htail : ("ill=\"".data ++ (v ++ '"' :: b))
        = ("ill=\"".data ++ (v ++ ['"'])) ++ b := by
      simp
    have htlen : ("ill=\"".data ++ (v ++ ['"'])).length = 6 + v.length := by
      simp only [List.length_append, List.length_cons, List.length_nil]
      have e5 : ("ill=\"".data).length = 5 := rfl
      omega
    have d2 : rest.drop 1 = ("ill=\"".data ++ (v ++ ['"'])) ++ b := by
      show "ill=\"".data ++ (v ++ '"' :: b) = _
      simp
    have hnot : ∀ s t, ("ill=\"".data ++ (v ++ ['"'])) = s ++ t → t ≠ [] →
        leadsWith fillLit (t ++ b) = false := by
      intro s t hst htne
      have ht := List.length_pos.mpr htne
      have hstl : s.length + t.length = 6 + v.length := by
        have h5 := congrArg List.length hst
        rw [htlen] at h5
        simp only [List.length_append] at h5
        omega
      have hieq : (a ++ rest).drop (a.length + (1 + s.length)) = t ++ b := by
        rw [← List.drop_drop, List.drop_left, ← List.drop_drop, d2, hst,
          List.append_assoc, List.drop_left]
      have hp := hattr (a.length + (1 + s.length)) (by omega) (by omega)
      rw [hieq] at hp
      exact hp
    have hwalk2 := subFillAux_walk ("ill=\"".data ++ (v ++ ['"'])) m b hnot
      (by simp only [List.length_append] at htlen ⊢; omega)
    show subFillAux (a ++ rest).length (a ++ rest) = _
    rw [hwalk, hflen, hm, hskip, htail, hwalk2, htlen]
    have hbf : m - (6 + v.length) = b.length := by omega
    rw [hbf]
    show Option.map _ (Option.map _ (Option.map _ (subFillL b))) = _
    cases subFillL b with
    | none => rfl
    | some t =>
      simp only [Option.map_some']
      congr 1
      show a ++ ('f' :: (("ill=\"".data ++ (v ++ ['"'])) ++ t)) = _
      congr 1
      show fillLit ++ ((v ++ ['"']) ++ t) = fillLit ++ (v ++ '"' :: t)
      congr 1
      simp

/-- Witness for `C6_fill_rewrite` on the repository test input holding
two fill attributes: the first occurrence is rewritten and the
continuation is the fill pass of the remainder, which holds the second
occurrence; a second conjunct exercises the untouched case. -/
theorem C6_witness :
    (subFillL ("<path ".data ++ (fillLit ++ ("#000000".data ++ '"'
        :: "/><path fill=\"#FFFFFF\"/>".data)))
      = match invertCore "#000000".data with
        | none => none
        | some inv => (subFillL "/><path fill=\"#FFFFFF\"/>".data).map
            (fun t => "<path ".data ++ (fillLit ++ "#000000".data
              ++ ('"' :: ' ' :: darkAttrLit) ++ inv ++ '"' :: t)))
    ∧ (subFillL ("<p ".data ++ (fillLit ++ ("red".data ++ '"'
        :: " fill-dark=\"x\"/><q fill=\"blue\"/>".data)))
      = (subFillL " fill-dark=\"x\"/><q fill=\"blue\"/>".data).map
          (fun t => "<p ".data ++ (fillLit ++ ("red".data ++ '"' :: t)))) :=
  ⟨(C6_fill_rewrite "<path ".data "#000000".data "/><path fill=\"#FFFFFF\"/>".data
      (by decide) (by decide)).1 (by decide),
   (C6_fill_rewrite "<p ".data "red".data " fill-dark=\"x\"/><q fill=\"blue\"/>".data
      (by decide) (by decide)).2 (by decide) (by decide)⟩

/-- The attribute strip is the identity without its pattern. -/
theorem subAttrRemove_id {pat l : List Char} (h : containsSub pat l = false) :
    ∀ fuel, subAttrRemoveAux pat fuel l = l := by
  induction l with
  | nil => intro fuel; cases fuel <;> rfl
  | cons c cs ih =>
    intro fuel
    have hparts : leadsWith pat (c :: cs) = false ∧ containsSub pat cs = false := by
      have : containsSub pat (c :: cs)
          = (leadsWith pat (c :: cs) || containsSub pat cs) := rfl
      rw [this] at h
      exact Bool.or_eq_false_iff.mp h
    cases fuel with
    | zero => rfl
    | succ n =>
      simp only [subAttrRemoveAux, hparts.1, Bool.false_eq_true, if_false]
      rw [ih hparts.2]

/-- The fill pass is the identity without `fill="`. -/
theorem subFill_id {l : List Char} (h : containsSub fillLit l = false) (fuel : Nat) :
    subFillAux fuel l = some l := by
  apply subFillAux_skipAll
  intro i vr h1 h2
  rw [leadsWith_drop_containsSub h1] at h
  cases h

/-- Claim C7 (corrected, amended): a text containing none of `fill=`,
`fill-dark`, `fill-light` and no literal `<style>` is returned character
for character.  The claim's hypotheses (`no fill=` and no style block
only) do not suffice: the strip passes also delete pre-existing
`fill-dark="..."`/`fill-light="..."` attributes, which contain no
`fill=` substring (see the counterexample). -/
theorem C7_no_fill_identity (s : String)
    (h1 : containsSub "fill=".data s.data = false)
    (h2 : containsSub "fill-dark".data s.data = false)
    (h3 : containsSub "fill-light".data s.data = false)
    (h4 : containsSub sOpen s.data = false) :
    add_dark_mode_attributes s = some s := by
  have hscan : styleScanL s.data = ([], s.data) :=
    styleScanAux_nomatch _ ((splitFirst_none_iff (by decide)).mpr h4)
  have hff : containsSub fillLit s.data = false := by
    by_cases hx : containsSub fillLit s.data = true
    · rw [containsSub_of_leadsWith (by decide) hx] at h1
      cases h1
    · simpa using hx
  have hfd : containsSub darkAttrLit s.data = false := by
    by_cases hx : containsSub darkAttrLit s.data = true
    · rw [containsSub_of_leadsWith (by decide) hx] at h2
      cases h2
    · simpa using hx
  have hfl : containsSub lightAttrLit s.data = false := by
    by_cases hx : containsSub lightAttrLit s.data = true
    · rw [containsSub_of_leadsWith (by decide) hx] at h3
      cases h3
    · simpa using hx
  have hrm : styleRemoveAllL s.data = s.data := by
    unfold styleRemoveAllL
    rw [hscan]
  have hfa : styleFindallL s.data = [] := by
    unfold styleFindallL
    rw [hscan]
  have hpres : preservedStylesL s.data = [] := by
    unfold preservedStylesL
    rw [hfa]
    rfl
  have hstrip : strippedContentL s.data = s.data := by
    unfold strippedContentL
    unfold subAttrRemoveL
    rw [hrm, subAttrRemove_id hfd, subAttrRemove_id hfl]
  have hsf : subFillL s.data = some s.data := subFill_id hff _
  unfold add_dark_mode_attributes addDarkCoreL
  rw [hstrip, hsf, hpres]
  rfl

/-- Claim C7 counterexample: `<a fill-dark="x"/>` contains no `fill=`
substring and no style block, yet the output is `<a />`, not the
input. -/
theorem C7_cex :
    containsSub "fill=".data "<a fill-dark=\"x\"/>".data = false
    ∧ styleFindallL "<a fill-dark=\"x\"/>".data = []
    ∧ add_dark_mode_attributes "<a fill-dark=\"x\"/>" = some "<a />" :=
  ⟨by decide, by decide, by decide⟩

/-- Witness for `C7_no_fill_identity` at the test suite's input. -/
theorem C7_witness : add_dark_mode_attributes "<not-valid-svg>" = some "<not-valid-svg>" :=
  C7_no_fill_identity "<not-valid-svg>" (by decide) (by decide) (by decide) (by decide)

/-- Claim C10 (corrected, amended): only the literal seven-character
`<style>` opens a block for the scan, so in a document with no literal
`<style>` substring — in particular one whose style elements all carry
attributes in their opening tags — nothing is classified, removed or
aggregated, and the whole pipeline is exactly the attribute-strip and
fill-rewrite passes.  The universal claim fails when an unclosed literal
`<style>` precedes the attributed element: the match swallows it (see
the counterexample). -/
theorem C10_attributed_style (s : String)
    (h : containsSub sOpen s.data = false) :
    styleFindallL s.data = []
    ∧ add_dark_mode_attributes s
        = (subFillL (subAttrRemoveL lightAttrLit (subAttrRemoveL darkAttrLit s.data))).map
            String.mk := by
  have hscan : styleScanL s.data = ([], s.data) :=
    styleScanAux_nomatch _ ((splitFirst_none_iff (by decide)).mpr h)
  have hfa : styleFindallL s.data = [] := by
    unfold styleFindallL
    rw [hscan]
  have hrm : styleRemoveAllL s.data = s.data := by
    unfold styleRemoveAllL
    rw [hscan]
  have hpres : preservedStylesL s.data = [] := by
    unfold preservedStylesL
    rw [hfa]
    rfl
  refine ⟨hfa, ?_⟩
  unfold add_dark_mode_attributes addDarkCoreL strippedContentL
  rw [hrm, hpres]
  cases subFillL (subAttrRemoveL lightAttrLit (subAttrRemoveL darkAttrLit s.data)) <;>
    simp [reinsertL]

/-- Claim C10 counterexample: the attributed element
`<style type="a">B</style>` is swallowed by the match that opens at the
preceding bare `<style>`; its text `B` is classified (and discarded, as
the captured text contains `dark`), so the output is empty. -/
theorem C10_cex :
    add_dark_mode_attributes "<style>dark<style type=\"a\">B</style>" = some "" := by
  decide

/-- Witness for `C10_attributed_style` on an attributed style element. -/
theorem C10_witness :
    styleFindallL "<style type=\"text/css\">.a</style><path fill=\"black\"/>".data = []
    ∧ add_dark_mode_attributes "<style type=\"text/css\">.a</style><path fill=\"black\"/>"
        = (subFillL (subAttrRemoveL lightAttrLit (subAttrRemoveL darkAttrLit
            "<style type=\"text/css\">.a</style><path fill=\"black\"/>".data))).map
            String.mk :=
  C10_attributed_style "<style type=\"text/css\">.a</style><path fill=\"black\"/>" (by decide)
